import Mathlib

/-
Verification of the backward liveness analysis engine of
Source/JavaScriptCore/b3/air/AirLiveness.h.

The engine is embedded shallowly:
 * an operand occurrence carries an entity index (the adapter's
   valueToIndex already applied), a role (three Boolean predicates
   mirroring Arg::isDef / Arg::isEarlyUse / Arg::isLateUse) and a type
   tag filtered by the adapter's acceptsType predicate;
 * the IndexSparseSet workset is an insertion-ordered duplicate-free
   list of naturals;
 * the HashSet liveAtTail sets and the Vector liveAtHead are likewise
   lists, grown exactly where the source grows them;
 * the AbstractLiveness constructor's do/while loop is a fuel-based
   iteration; the fuel computed below is proved sufficient.
-/

namespace AirLiveness

/-- Role of an operand occurrence: the three Boolean classifications
used by the analysis (Arg::isEarlyUse, Arg::isLateUse, Arg::isDef).
A single Air role may satisfy several of them. -/
structure Role where
  isEarlyUse : Bool
  isLateUse : Bool
  isDef : Bool
deriving DecidableEq, Repr

/-- One operand occurrence of an instruction: entity index (the
adapter's valueToIndex applied to the thing), its role, and its
type tag (tested by the adapter's acceptsType). -/
structure Operand where
  index : Nat
  role : Role
  ty : Nat
deriving DecidableEq, Repr

/-- An instruction, as the analysis sees it: the ordered list of its
operand occurrences (Inst::forEach visits them in this order). -/
abbrev Inst := List Operand

/-- A basic block: ordered instructions and the indices of its
predecessor blocks. -/
structure BasicBlock where
  insts : List Inst
  preds : List Nat
deriving DecidableEq, Repr

/-- The code: indexed block access where a slot may be null
(`code.at(blockIndex)` may return nullptr and is skipped). -/
abbrev Code := List (Option BasicBlock)

/-- IndexSparseSet::add - insert at the end iff not present. -/
def wsAdd (ws : List Nat) (i : Nat) : List Nat :=
  if i ∈ ws then ws else ws ++ [i]

/-- IndexSparseSet::remove. -/
def wsRemove (ws : List Nat) (i : Nat) : List Nat :=
  ws.filter (fun j => j ≠ i)

/-- Fold of `workset.add` over the operands of an instruction that
satisfy a predicate (one forEach lambda of the source). -/
def foldAdd (p : Operand → Bool) (inst : Inst) (ws : List Nat) : List Nat :=
  inst.foldl (fun w o => if p o then wsAdd w o.index else w) ws

/-- Fold of `workset.remove` over the operands of an instruction that
satisfy a predicate. -/
def foldRemove (p : Operand → Bool) (inst : Inst) (ws : List Nat) : List Nat :=
  inst.foldl (fun w o => if p o then wsRemove w o.index else w) ws

/-- `Arg::isDef(role) && Adapter::acceptsType(type)`. -/
def isAcceptedDef (accepts : Nat → Bool) (o : Operand) : Bool :=
  o.role.isDef && accepts o.ty

/-- `Arg::isEarlyUse(role) && Adapter::acceptsType(type)`. -/
def isAcceptedEarlyUse (accepts : Nat → Bool) (o : Operand) : Bool :=
  o.role.isEarlyUse && accepts o.ty

/-- `Arg::isLateUse(role) && Adapter::acceptsType(type)`. -/
def isAcceptedLateUse (accepts : Nat → Bool) (o : Operand) : Bool :=
  o.role.isLateUse && accepts o.ty

/-- LocalCalc::execute(instIndex): first remove the accepted Defs of
the instruction, then add its accepted EarlyUses, and finally - iff
instIndex is nonzero - add the accepted LateUses of the previous
instruction. -/
def execute (accepts : Nat → Bool) (b : BasicBlock) (instIndex : Nat)
    (ws : List Nat) : List Nat :=
  let inst := b.insts.getD instIndex []
  let ws1 := foldRemove (isAcceptedDef accepts) inst ws
  let ws2 := foldAdd (isAcceptedEarlyUse accepts) inst ws1
  if instIndex = 0 then ws2
  else foldAdd (isAcceptedLateUse accepts) (b.insts.getD (instIndex - 1) []) ws2

/-- LocalCalc's constructor: clear the workset, then add every index of
liveAtTail[block]. -/
def localCalcInit (liveAtTail : List Nat) : List Nat :=
  liveAtTail.foldl wsAdd []

/-- Running execute from instruction index k-1 down to 0
(`for (size_t instIndex = k; instIndex--;) localCalc.execute(instIndex)`). -/
def execDown (accepts : Nat → Bool) (b : BasicBlock) : Nat → List Nat → List Nat
  | 0, ws => ws
  | k + 1, ws => execDown accepts b k (execute accepts b k ws)

/-- The live set immediately before the first instruction of a block,
as the Local Backward Scan computes it from a given liveAtTail set. -/
def liveBeforeFirst (accepts : Nat → Bool) (b : BasicBlock)
    (liveAtTail : List Nat) : List Nat :=
  execDown accepts b b.insts.length (localCalcInit liveAtTail)

/-- The seed of liveAtTail[block]: the accepted LateUse operand indices
of the block's terminal (last) instruction. -/
def lateUsesOfTerminal (accepts : Nat → Bool) (b : BasicBlock) : List Nat :=
  foldAdd (isAcceptedLateUse accepts) (b.insts.getLastD []) []

/-- The mutable state of the AbstractLiveness constructor: m_liveAtTail,
m_liveAtHead and the dirtyBlocks bit vector, all keyed by block index. -/
structure LState where
  liveAtTail : Nat → List Nat
  liveAtHead : Nat → List Nat
  dirty : Nat → Bool

/-- Pointwise update of a block-indexed map. -/
def upd {α : Type} (f : Nat → α) (i : Nat) (x : α) : Nat → α :=
  fun j => if j = i then x else f j

/-- The state before the do/while loop: every tail seeded with the
terminal's accepted late uses, every head empty, every block index of
the code marked dirty. -/
def initState (accepts : Nat → Bool) (code : Code) : LState where
  liveAtTail := fun b =>
    match code.getD b none with
    | none => []
    | some block => lateUsesOfTerminal accepts block
  liveAtHead := fun _ => []
  dirty := fun b => decide (b < code.length)

/-- One `liveAtTail.add(newValue)` on a predecessor, with the dirty
marking and the `changed` update: if the value is new it is appended,
and if the predecessor's dirty bit was clear it is set and `changed`
becomes true (BitVector::quickSet returns true exactly when the bit
newly became set). -/
def addToTail (sc : LState × Bool) (p v : Nat) : LState × Bool :=
  let s := sc.1
  if v ∈ s.liveAtTail p then sc
  else
    let s1 : LState := { s with liveAtTail := upd s.liveAtTail p (s.liveAtTail p ++ [v]) }
    if s1.dirty p then (s1, sc.2)
    else ({ s1 with dirty := upd s1.dirty p true }, true)

/-- Inner propagation loop: add every delta value to one predecessor's
tail. -/
def addAll (vs : List Nat) (sc : LState × Bool) (p : Nat) : LState × Bool :=
  vs.foldl (fun acc v => addToTail acc p v) sc

/-- Outer propagation loop over the block's predecessors. -/
def propagate (ps : List Nat) (vs : List Nat) (sc : LState × Bool) : LState × Bool :=
  ps.foldl (addAll vs) sc

/-- The body of the fixed-point loop for one block index: skip null
slots, skip clean blocks (clearing happens via quickClear), run the
local scan, subtract the already-known liveAtHead (with the
size-equality shortcut), append the delta to liveAtHead and propagate
it to the predecessors. -/
def processBlock (accepts : Nat → Bool) (code : Code) (b : Nat)
    (sc : LState × Bool) : LState × Bool :=
  match code.getD b none with
  | none => sc
  | some block =>
    let s := sc.1
    if s.dirty b = false then sc
    else
      let s1 : LState := { s with dirty := upd s.dirty b false }
      let ws := execDown accepts block block.insts.length
        (localCalcInit (s1.liveAtTail b))
      let lah := s1.liveAtHead b
      let ws2 := if ws.length = lah.length then [] else lah.foldl wsRemove ws
      if ws2.isEmpty then (s1, sc.2)
      else
        let s2 : LState := { s1 with liveAtHead := upd s1.liveAtHead b (lah ++ ws2) }
        propagate block.preds ws2 (s2, sc.2)

/-- One pass of the loop over block indices k-1 down to 0
(`for (size_t blockIndex = code.size(); blockIndex--;)`). -/
def passAux (accepts : Nat → Bool) (code : Code) :
    Nat → LState × Bool → LState × Bool
  | 0, sc => sc
  | k + 1, sc => passAux accepts code k (processBlock accepts code k sc)

/-- The do/while loop with fuel. The Boolean result records that the
loop exited because `changed` was false (rather than running out of
fuel). -/
def loop (accepts : Nat → Bool) (code : Code) : Nat → LState → LState × Bool
  | 0, s => (s, false)
  | fuel + 1, s =>
    let r := passAux accepts code code.length (s, false)
    if r.2 then loop accepts code fuel r.1 else (r.1, true)

/-- All operand indices occurring in a block. -/
def blockIdxs (b : BasicBlock) : List Nat :=
  b.insts.flatMap (fun inst => inst.map Operand.index)

/-- All operand indices occurring in the code. -/
def allIdx (code : Code) : List Nat :=
  code.flatMap (fun ob =>
    match ob with
    | none => []
    | some block => blockIdxs block)

/-- Fuel that always suffices for the loop to reach its fixed point. -/
def fuelBound (code : Code) : Nat :=
  code.length * (allIdx code).toFinset.card + 1

/-- The AbstractLiveness constructor: seed, iterate to the fixed point,
discard liveAtHead; the result is the liveAtTail map. -/
def abstractLiveness (accepts : Nat → Bool) (code : Code) : Nat → List Nat :=
  ((loop accepts code (fuelBound code) (initState accepts code)).1).liveAtTail

/-- The state visible to a consumer after construction: the stable
liveAtTail map and the shared workset that LocalCalc reuses. -/
structure PState where
  liveAtTail : Nat → List Nat
  workset : List Nat

/-- LocalCalc's constructor acting on the post-construction state:
only the workset is written. -/
def lcInit (st : PState) (b : Nat) : PState :=
  { st with workset := localCalcInit (st.liveAtTail b) }

/-- LocalCalc::execute acting on the post-construction state: only the
workset is written. -/
def lcExecute (accepts : Nat → Bool) (block : BasicBlock) (i : Nat)
    (st : PState) : PState :=
  { st with workset := execute accepts block i st.workset }

/-- LocalCalc::live - the current workset contents; reads only. -/
def lcLive (st : PState) : List Nat :=
  st.workset

/-- A full re-scan of one block by a consumer: construct a LocalCalc
(clearing and refilling the workset from liveAtTail[b]) and execute
from the last instruction down to 0. -/
def scanBlock (accepts : Nat → Bool) (st : PState) (block : BasicBlock)
    (b : Nat) : PState :=
  { st with
    workset := execDown accepts block block.insts.length
      (localCalcInit (st.liveAtTail b)) }

/-- A Tmp: either a machine register or a virtual register (tmp) of the
adapter's class, identified by their per-kind indices. -/
inductive Tmp where
  | reg : Nat → Tmp
  | tmp : Nat → Tmp
deriving DecidableEq, Repr

/-- Modelled from the spec: AbsoluteTmpMapper::absoluteIndex
(AirTmpInlines.h, not part of the analysed sources) maps the entities
of one register class bijectively to dense indices - machine registers
to [0, numRegisters) and tmps densely after them. -/
def absoluteIndex (numRegisters : Nat) : Tmp → Nat
  | .reg r => r
  | .tmp i => numRegisters + i

/-- Modelled from the spec: AbsoluteTmpMapper::absoluteIndex applied to
a tmp count, the upper bound used by TmpLivenessAdapter::maxIndex. -/
def absoluteIndexOfCount (numRegisters numTmps : Nat) : Nat :=
  numRegisters + numTmps

/-- Modelled from the spec: AbsoluteTmpMapper::tmpFromAbsoluteIndex,
the inverse of absoluteIndex. -/
def tmpFromAbsoluteIndex (numRegisters idx : Nat) : Tmp :=
  if idx < numRegisters then .reg idx else .tmp (idx - numRegisters)

/-- TmpLivenessAdapter::maxIndex(code) =
absoluteIndex(code.numTmps(adapterType)). -/
def tmpMaxIndex (numRegisters numTmps : Nat) : Nat :=
  absoluteIndexOfCount numRegisters numTmps

/-- TmpLivenessAdapter::valueToIndex. -/
def tmpValueToIndex (numRegisters : Nat) (t : Tmp) : Nat :=
  absoluteIndex numRegisters t

/-- Validity of a Tmp with respect to the enclosing code: register
numbers below numRegisters, tmp numbers below code.numTmps. -/
def TmpValid (numRegisters numTmps : Nat) : Tmp → Prop
  | .reg r => r < numRegisters
  | .tmp i => i < numTmps

instance (numRegisters numTmps : Nat) (t : Tmp) :
    Decidable (TmpValid numRegisters numTmps t) := by
  cases t <;> simp [TmpValid] <;> infer_instance

/-- StackSlotLivenessAdapter::maxIndex(code) =
code.stackSlots().size() - 1, computed in unsigned arithmetic: size()
is a size_t (64 bits), the subtraction wraps modulo 2^64 and the
result is truncated to the unsigned (32-bit) return type. -/
def stackSlotMaxIndex (numSlots : Nat) : Nat :=
  (((numSlots % 2 ^ 64) + (2 ^ 64 - 1)) % 2 ^ 64) % 2 ^ 32

/-- StackSlotLivenessAdapter::acceptsType - true for every type tag. -/
def stackAccepts (_ : Nat) : Bool :=
  true

/-- StackSlotLivenessAdapter::valueToIndex(slot) = slot->index(); in
Code, the slot stored at position i of stackSlots() has index i, so a
slot is identified here with its index. -/
def stackValueToIndex (slot : Nat) : Nat :=
  slot

/-- StackSlotLivenessAdapter::indexToValue(index) =
m_code.stackSlots()[index]. -/
def stackIndexToValue (numSlots idx : Nat) : Nat :=
  (List.range numSlots).getD idx 0

/-- The workset capacity the engine passes at construction:
m_workset(Adapter::maxIndex(code)), for the stack-slot adapter. -/
def stackWorksetCapacity (numSlots : Nat) : Nat :=
  stackSlotMaxIndex numSlots

/-- Some operand of the instruction satisfies the predicate and has the
given entity index. -/
def OpIn (p : Operand → Bool) (inst : Inst) (x : Nat) : Prop :=
  ∃ o ∈ inst, p o = true ∧ o.index = x

instance (p : Operand → Bool) (inst : Inst) (x : Nat) :
    Decidable (OpIn p inst x) := by
  unfold OpIn
  infer_instance

theorem mem_wsAdd {ws : List Nat} {i x : Nat} :
    x ∈ wsAdd ws i ↔ x ∈ ws ∨ x = i := by
  unfold wsAdd
  split
  · next h =>
    constructor
    · exact Or.inl
    · rintro (hx | rfl)
      · exact hx
      · exact h
  · simp [List.mem_append]

theorem mem_wsRemove {ws : List Nat} {i x : Nat} :
    x ∈ wsRemove ws i ↔ x ∈ ws ∧ x ≠ i := by
  simp [wsRemove, List.mem_filter]

theorem nodup_wsAdd {ws : List Nat} {i : Nat} (h : ws.Nodup) :
    (wsAdd ws i).Nodup := by
  unfold wsAdd
  split
  · exact h
  · next hni => simp [List.nodup_append, h, hni]

theorem nodup_wsRemove {ws : List Nat} {i : Nat} (h : ws.Nodup) :
    (wsRemove ws i).Nodup :=
  h.filter _

theorem opIn_nil {p : Operand → Bool} {x : Nat} : ¬ OpIn p [] x := by
  simp [OpIn]

theorem opIn_cons {p : Operand → Bool} {o : Operand} {rest : Inst} {x : Nat} :
    OpIn p (o :: rest) x ↔ (p o = true ∧ o.index = x) ∨ OpIn p rest x := by
  simp [OpIn, List.mem_cons, or_and_right, exists_or]

theorem mem_foldAdd {p : Operand → Bool} {inst : Inst} {ws : List Nat} {x : Nat} :
    x ∈ foldAdd p inst ws ↔ x ∈ ws ∨ OpIn p inst x := by
  induction inst generalizing ws with
  | nil => simp [foldAdd, OpIn]
  | cons o rest ih =>
    show x ∈ foldAdd p rest (if p o then wsAdd ws o.index else ws) ↔ _
    rw [ih, opIn_cons]
    by_cases hp : p o = true
    · rw [if_pos hp, mem_wsAdd]
      constructor
      · rintro ((hw | rfl) | hr)
        · exact Or.inl hw
        · exact Or.inr (Or.inl ⟨hp, rfl⟩)
        · exact Or.inr (Or.inr hr)
      · rintro (hw | (⟨_, rfl⟩ | hr))
        · exact Or.inl (Or.inl hw)
        · exact Or.inl (Or.inr rfl)
        · exact Or.inr hr
    · rw [if_neg hp]
      constructor
      · rintro (hw | hr)
        · exact Or.inl hw
        · exact Or.inr (Or.inr hr)
      · rintro (hw | (⟨hpo, _⟩ | hr))
        · exact Or.inl hw
        · exact absurd hpo hp
        · exact Or.inr hr

theorem mem_foldRemove {p : Operand → Bool} {inst : Inst} {ws : List Nat} {x : Nat} :
    x ∈ foldRemove p inst ws ↔ x ∈ ws ∧ ¬ OpIn p inst x := by
  induction inst generalizing ws with
  | nil => simp [foldRemove, OpIn]
  | cons o rest ih =>
    show x ∈ foldRemove p rest (if p o then wsRemove ws o.index else ws) ↔ _
    rw [ih, opIn_cons]
    by_cases hp : p o = true
    · rw [if_pos hp, mem_wsRemove]
      constructor
      · rintro ⟨⟨hw, hne⟩, hnr⟩
        refine ⟨hw, ?_⟩
        rintro (⟨_, hi⟩ | hr)
        · exact hne hi.symm
        · exact hnr hr
      · rintro ⟨hw, hn⟩
        refine ⟨⟨hw, ?_⟩, fun hr => hn (Or.inr hr)⟩
        rintro rfl
        exact hn (Or.inl ⟨hp, rfl⟩)
    · rw [if_neg hp]
      constructor
      · rintro ⟨hw, hnr⟩
        refine ⟨hw, ?_⟩
        rintro (⟨hpo, _⟩ | hr)
        · exact hp hpo
        · exact hnr hr
      · rintro ⟨hw, hn⟩
        exact ⟨hw, fun hr => hn (Or.inr hr)⟩

theorem nodup_foldAdd {p : Operand → Bool} {inst : Inst} {ws : List Nat}
    (h : ws.Nodup) : (foldAdd p inst ws).Nodup := by
  induction inst generalizing ws with
  | nil => exact h
  | cons o rest ih =>
    show (foldAdd p rest (if p o then wsAdd ws o.index else ws)).Nodup
    split
    · exact ih (nodup_wsAdd h)
    · exact ih h

theorem nodup_foldRemove {p : Operand → Bool} {inst : Inst} {ws : List Nat}
    (h : ws.Nodup) : (foldRemove p inst ws).Nodup := by
  induction inst generalizing ws with
  | nil => exact h
  | cons o rest ih =>
    show (foldRemove p rest (if p o then wsRemove ws o.index else ws)).Nodup
    split
    · exact ih (nodup_wsRemove h)
    · exact ih h

theorem mem_foldl_wsAdd {t ws : List Nat} {x : Nat} :
    x ∈ t.foldl wsAdd ws ↔ x ∈ ws ∨ x ∈ t := by
  induction t generalizing ws with
  | nil => simp
  | cons a t ih =>
    show x ∈ t.foldl wsAdd (wsAdd ws a) ↔ _
    rw [ih, mem_wsAdd]
    simp [List.mem_cons]
    tauto

theorem nodup_foldl_wsAdd {t ws : List Nat} (h : ws.Nodup) :
    (t.foldl wsAdd ws).Nodup := by
  induction t generalizing ws with
  | nil => exact h
  | cons a t ih => exact ih (nodup_wsAdd h)

theorem mem_localCalcInit {t : List Nat} {x : Nat} :
    x ∈ localCalcInit t ↔ x ∈ t := by
  unfold localCalcInit
  rw [mem_foldl_wsAdd]
  simp

theorem nodup_localCalcInit {t : List Nat} : (localCalcInit t).Nodup :=
  nodup_foldl_wsAdd List.nodup_nil

theorem mem_execute {accepts : Nat → Bool} {b : BasicBlock} {i : Nat}
    {ws : List Nat} {x : Nat} :
    x ∈ execute accepts b i ws ↔
      OpIn (isAcceptedEarlyUse accepts) (b.insts.getD i []) x ∨
      (i ≠ 0 ∧ OpIn (isAcceptedLateUse accepts) (b.insts.getD (i - 1) []) x) ∨
      (x ∈ ws ∧ ¬ OpIn (isAcceptedDef accepts) (b.insts.getD i []) x) := by
  unfold execute
  split
  · next h0 => subst h0; rw [mem_foldAdd, mem_foldRemove]; tauto
  · next h0 => rw [mem_foldAdd, mem_foldAdd, mem_foldRemove]; tauto

theorem nodup_execute {accepts : Nat → Bool} {b : BasicBlock} {i : Nat}
    {ws : List Nat} (h : ws.Nodup) : (execute accepts b i ws).Nodup := by
  unfold execute
  split
  · exact nodup_foldAdd (nodup_foldRemove h)
  · exact nodup_foldAdd (nodup_foldAdd (nodup_foldRemove h))

theorem execute_mono {accepts : Nat → Bool} {b : BasicBlock} {i : Nat}
    {ws ws' : List Nat} (h : ∀ x ∈ ws, x ∈ ws') :
    ∀ x ∈ execute accepts b i ws, x ∈ execute accepts b i ws' := by
  intro x hx
  rw [mem_execute] at hx ⊢
  rcases hx with he | hl | ⟨hw, hd⟩
  · exact Or.inl he
  · exact Or.inr (Or.inl hl)
  · exact Or.inr (Or.inr ⟨h x hw, hd⟩)

theorem nodup_execDown {accepts : Nat → Bool} {b : BasicBlock} {k : Nat}
    {ws : List Nat} (h : ws.Nodup) : (execDown accepts b k ws).Nodup := by
  induction k generalizing ws with
  | zero => exact h
  | succ k ih => exact ih (nodup_execute h)

theorem execDown_mono {accepts : Nat → Bool} {b : BasicBlock} {k : Nat}
    {ws ws' : List Nat} (h : ∀ x ∈ ws, x ∈ ws') :
    ∀ x ∈ execDown accepts b k ws, x ∈ execDown accepts b k ws' := by
  induction k generalizing ws ws' with
  | zero => exact h
  | succ k ih => exact ih (execute_mono h)

theorem liveBeforeFirst_mono {accepts : Nat → Bool} {b : BasicBlock}
    {t t' : List Nat} (h : ∀ x ∈ t, x ∈ t') :
    ∀ x ∈ liveBeforeFirst accepts b t, x ∈ liveBeforeFirst accepts b t' := by
  unfold liveBeforeFirst
  refine execDown_mono ?_
  intro x hx
  rw [mem_localCalcInit] at hx ⊢
  exact h x hx

theorem nodup_liveBeforeFirst {accepts : Nat → Bool} {b : BasicBlock}
    {t : List Nat} : (liveBeforeFirst accepts b t).Nodup :=
  nodup_execDown nodup_localCalcInit

theorem nodup_lateUsesOfTerminal {accepts : Nat → Bool} {b : BasicBlock} :
    (lateUsesOfTerminal accepts b).Nodup :=
  nodup_foldAdd List.nodup_nil

theorem upd_apply_same {α : Type} (f : Nat → α) (i : Nat) (x : α) :
    upd f i x i = x := by
  simp [upd]

theorem upd_apply_ne {α : Type} (f : Nat → α) (i : Nat) (x : α) {j : Nat}
    (h : j ≠ i) : upd f i x j = f j := by
  simp [upd, h]

theorem upd_eq_of {α : Type} {f : Nat → α} {i : Nat} {x : α} (h : f i = x) :
    upd f i x = f := by
  funext j
  unfold upd
  split
  · next hj => rw [hj, h]
  · rfl

theorem upd_upd_same {α : Type} (f : Nat → α) (i : Nat) (a b : α) :
    upd (upd f i a) i b = upd f i b := by
  funext j
  unfold upd
  split <;> rfl

theorem getD_eq_nil_or_mem {α : Type} (l : List (List α)) (i : Nat) :
    l.getD i [] = [] ∨ l.getD i [] ∈ l := by
  induction l generalizing i with
  | nil => left; cases i <;> rfl
  | cons a l ih =>
    cases i with
    | zero => right; simp
    | succ n =>
      rcases ih n with h | h
      · left; simpa using h
      · right; simp only [List.getD_cons_succ]; exact List.mem_cons_of_mem _ h

theorem getLastD_eq_or_mem {α : Type} (l : List α) (d : α) :
    l.getLastD d = d ∨ l.getLastD d ∈ l := by
  induction l generalizing d with
  | nil => left; rfl
  | cons a l ih =>
    rw [List.getLastD_cons]
    rcases ih a with h | h
    · right; rw [h]; exact List.mem_cons_self a l
    · right; exact List.mem_cons_of_mem _ h

theorem mem_blockIdxs_of_mem {b : BasicBlock} {inst : Inst} {o : Operand}
    (hi : inst ∈ b.insts) (ho : o ∈ inst) : o.index ∈ blockIdxs b := by
  unfold blockIdxs
  rw [List.mem_flatMap]
  exact ⟨inst, hi, List.mem_map_of_mem _ ho⟩

theorem opIn_getD_blockIdxs {p : Operand → Bool} {b : BasicBlock} {i : Nat}
    {x : Nat} (h : OpIn p (b.insts.getD i []) x) : x ∈ blockIdxs b := by
  obtain ⟨o, ho, _, hox⟩ := h
  rcases getD_eq_nil_or_mem b.insts i with hnil | hmem
  · rw [hnil] at ho; cases ho
  · exact hox ▸ mem_blockIdxs_of_mem hmem ho

theorem opIn_getLastD_blockIdxs {p : Operand → Bool} {b : BasicBlock}
    {x : Nat} (h : OpIn p (b.insts.getLastD []) x) : x ∈ blockIdxs b := by
  obtain ⟨o, ho, _, hox⟩ := h
  rcases getLastD_eq_or_mem b.insts [] with hnil | hmem
  · rw [hnil] at ho; cases ho
  · exact hox ▸ mem_blockIdxs_of_mem hmem ho

theorem execute_sub {accepts : Nat → Bool} {b : BasicBlock} {i : Nat}
    {ws : List Nat} {x : Nat} (h : x ∈ execute accepts b i ws) :
    x ∈ ws ∨ x ∈ blockIdxs b := by
  rw [mem_execute] at h
  rcases h with he | ⟨_, hl⟩ | ⟨hw, _⟩
  · exact Or.inr (opIn_getD_blockIdxs he)
  · exact Or.inr (opIn_getD_blockIdxs hl)
  · exact Or.inl hw

theorem execDown_sub {accepts : Nat → Bool} {b : BasicBlock} {k : Nat}
    {ws : List Nat} {x : Nat} (h : x ∈ execDown accepts b k ws) :
    x ∈ ws ∨ x ∈ blockIdxs b := by
  induction k generalizing ws with
  | zero => exact Or.inl h
  | succ k ih =>
    rcases ih h with hw | hb
    · exact execute_sub hw
    · exact Or.inr hb

theorem liveBeforeFirst_sub {accepts : Nat → Bool} {b : BasicBlock}
    {t : List Nat} {x : Nat} (h : x ∈ liveBeforeFirst accepts b t) :
    x ∈ t ∨ x ∈ blockIdxs b := by
  rcases execDown_sub h with hw | hb
  · exact Or.inl (mem_localCalcInit.mp hw)
  · exact Or.inr hb

theorem lateUsesOfTerminal_sub {accepts : Nat → Bool} {b : BasicBlock}
    {x : Nat} (h : x ∈ lateUsesOfTerminal accepts b) : x ∈ blockIdxs b := by
  unfold lateUsesOfTerminal at h
  rw [mem_foldAdd] at h
  rcases h with hn | ho
  · cases hn
  · exact opIn_getLastD_blockIdxs ho

theorem getD_mem_of_eq_some {α : Type} {l : List (Option α)} {i : Nat} {a : α}
    (h : l.getD i none = some a) : some a ∈ l := by
  induction l generalizing i with
  | nil => cases i <;> cases h
  | cons x l ih =>
    cases i with
    | zero => rw [List.getD_cons_zero] at h; exact h ▸ List.mem_cons_self x l
    | succ n =>
      rw [List.getD_cons_succ] at h
      exact List.mem_cons_of_mem _ (ih h)

theorem lt_length_of_getD_eq_some {α : Type} {l : List (Option α)} {i : Nat}
    {a : α} (h : l.getD i none = some a) : i < l.length := by
  induction l generalizing i with
  | nil => cases i <;> cases h
  | cons x l ih =>
    cases i with
    | zero => simp
    | succ n =>
      rw [List.getD_cons_succ] at h
      simpa using ih h

theorem mem_allIdx {code : Code} {b : BasicBlock} {x : Nat}
    (hb : some b ∈ code) (hx : x ∈ blockIdxs b) : x ∈ allIdx code := by
  unfold allIdx
  rw [List.mem_flatMap]
  exact ⟨some b, hb, hx⟩

theorem mem_foldl_wsRemove {lah ws : List Nat} {x : Nat} :
    x ∈ lah.foldl wsRemove ws ↔ x ∈ ws ∧ x ∉ lah := by
  induction lah generalizing ws with
  | nil => simp
  | cons a lah ih =>
    show x ∈ lah.foldl wsRemove (wsRemove ws a) ↔ _
    rw [ih, mem_wsRemove]
    simp [List.mem_cons]
    tauto

theorem nodup_foldl_wsRemove {lah ws : List Nat} (h : ws.Nodup) :
    (lah.foldl wsRemove ws).Nodup := by
  induction lah generalizing ws with
  | nil => exact h
  | cons a lah ih => exact ih (nodup_wsRemove h)

theorem addAll_spec {vs : List Nat} (hv : vs.Nodup) (s : LState) (ch : Bool)
    (p : Nat) :
    addAll vs (s, ch) p =
      (⟨upd s.liveAtTail p
          (s.liveAtTail p ++ vs.filter (fun v => decide (v ∉ s.liveAtTail p))),
        s.liveAtHead,
        if (vs.filter (fun v => decide (v ∉ s.liveAtTail p))).isEmpty then s.dirty
        else upd s.dirty p true⟩,
       ch || (!(vs.filter (fun v => decide (v ∉ s.liveAtTail p))).isEmpty
              && !s.dirty p)) := by
  induction vs generalizing s ch with
  | nil =>
    simp only [addAll, List.foldl_nil, List.filter_nil, List.isEmpty_nil,
      List.append_nil, if_true, Bool.not_true, Bool.false_and, Bool.or_false]
    rw [upd_eq_of rfl]
  | cons v vs ih =>
    have hvn : v ∉ vs := (List.nodup_cons.mp hv).1
    have hvs : vs.Nodup := (List.nodup_cons.mp hv).2
    show addAll vs (addToTail (s, ch) p v) p = _
    by_cases hmem : v ∈ s.liveAtTail p
    · have ht : addToTail (s, ch) p v = (s, ch) := by
        unfold addToTail
        rw [if_pos hmem]
      rw [ht, ih hvs]
      have hf : (v :: vs).filter (fun v => decide (v ∉ s.liveAtTail p)) =
          vs.filter (fun v => decide (v ∉ s.liveAtTail p)) := by
        rw [List.filter_cons]
        simp [hmem]
      rw [hf]
    · have hfilter : (v :: vs).filter (fun w => decide (w ∉ s.liveAtTail p)) =
          v :: vs.filter (fun w => decide (w ∉ s.liveAtTail p)) := by
        rw [List.filter_cons]
        simp [hmem]
      have htail1 : ∀ w ∈ vs,
          (decide (w ∉ s.liveAtTail p ++ [v]) : Bool) =
          (decide (w ∉ s.liveAtTail p) : Bool) := by
        intro w hw
        have hwv : w ≠ v := fun hwv => hvn (hwv ▸ hw)
        simp [List.mem_append, hwv]
      by_cases hd : s.dirty p = true
      · have ht : addToTail (s, ch) p v =
            ({ s with liveAtTail := upd s.liveAtTail p (s.liveAtTail p ++ [v]) },
             ch) := by
          unfold addToTail
          rw [if_neg hmem]
          simp only []
          rw [if_pos hd]
        rw [ht, ih hvs]
        simp only [upd_apply_same]
        rw [List.filter_congr htail1, upd_upd_same, List.append_assoc,
          List.singleton_append, hfilter]
        simp only [List.isEmpty_cons, Bool.false_eq_true, if_false,
          Bool.not_false, Bool.and_true]
        rw [hd]
        simp only [Bool.not_true, Bool.and_false, Bool.or_false]
        congr 1
        split
        · next hempty => rw [upd_eq_of hd]
        · rfl
      · have hdf : s.dirty p = false := by
          cases h : s.dirty p
          · rfl
          · exact absurd h hd
        have ht : addToTail (s, ch) p v =
            ({ s with
                liveAtTail := upd s.liveAtTail p (s.liveAtTail p ++ [v]),
                dirty := upd s.dirty p true },
             true) := by
          unfold addToTail
          rw [if_neg hmem]
          simp only []
          rw [if_neg hd]
        rw [ht, ih hvs]
        simp only [upd_apply_same]
        rw [List.filter_congr htail1, upd_upd_same, List.append_assoc,
          List.singleton_append, hfilter]
        simp only [List.isEmpty_cons, Bool.false_eq_true, if_false,
      Bool.not_false, Bool.and_true, hdf, Bool.or_true, Bool.true_or]
        congr 1
        split
        · rfl
        · rw [upd_upd_same]

theorem propagate_cons {p0 : Nat} {ps vs : List Nat} {sc : LState × Bool} :
    propagate (p0 :: ps) vs sc = propagate ps vs (addAll vs sc p0) :=
  rfl

theorem propagate_pair {ps vs : List Nat} {sc : LState × Bool} :
    propagate ps vs sc = propagate ps vs (sc.1, sc.2) :=
  rfl

theorem addAll_fst_tail {vs : List Nat} (hv : vs.Nodup) (s : LState)
    (ch : Bool) (p : Nat) :
    (addAll vs (s, ch) p).1.liveAtTail =
      upd s.liveAtTail p
        (s.liveAtTail p ++ vs.filter (fun v => decide (v ∉ s.liveAtTail p))) := by
  rw [addAll_spec hv]

theorem addAll_fst_head {vs : List Nat} (hv : vs.Nodup) (s : LState)
    (ch : Bool) (p : Nat) :
    (addAll vs (s, ch) p).1.liveAtHead = s.liveAtHead := by
  rw [addAll_spec hv]

theorem addAll_fst_dirty {vs : List Nat} (hv : vs.Nodup) (s : LState)
    (ch : Bool) (p : Nat) :
    (addAll vs (s, ch) p).1.dirty =
      if (vs.filter (fun v => decide (v ∉ s.liveAtTail p))).isEmpty = true
      then s.dirty else upd s.dirty p true := by
  rw [addAll_spec hv]

theorem addAll_snd {vs : List Nat} (hv : vs.Nodup) (s : LState)
    (ch : Bool) (p : Nat) :
    (addAll vs (s, ch) p).2 =
      (ch || (!(vs.filter (fun v => decide (v ∉ s.liveAtTail p))).isEmpty
              && !s.dirty p)) := by
  rw [addAll_spec hv]

theorem propagate_liveAtHead {ps vs : List Nat} (hv : vs.Nodup)
    (s : LState) (ch : Bool) :
    ((propagate ps vs (s, ch)).1).liveAtHead = s.liveAtHead := by
  induction ps generalizing s ch with
  | nil => rfl
  | cons p0 ps ih =>
    rw [propagate_cons, propagate_pair,
      ih (addAll vs (s, ch) p0).1 (addAll vs (s, ch) p0).2, addAll_fst_head hv]

theorem propagate_tail_extend {ps vs : List Nat} (hv : vs.Nodup)
    (s : LState) (ch : Bool) (q : Nat) :
    ∃ t, (propagate ps vs (s, ch)).1.liveAtTail q = s.liveAtTail q ++ t ∧
      ∀ v ∈ t, v ∈ vs := by
  induction ps generalizing s ch with
  | nil => exact ⟨[], (List.append_nil _).symm, by intro v hv0; cases hv0⟩
  | cons p0 ps ih =>
    rw [propagate_cons, propagate_pair]
    obtain ⟨t1, ht1, hsub1⟩ := ih (addAll vs (s, ch) p0).1 (addAll vs (s, ch) p0).2
    rw [addAll_fst_tail hv] at ht1
    by_cases hq : q = p0
    · subst hq
      rw [upd_apply_same, List.append_assoc] at ht1
      refine ⟨_, ht1, ?_⟩
      intro v hvm
      rcases List.mem_append.mp hvm with hf | ht
      · exact (List.mem_filter.mp hf).1
      · exact hsub1 v ht
    · rw [upd_apply_ne _ _ _ hq] at ht1
      exact ⟨t1, ht1, hsub1⟩

theorem propagate_tail_mono {ps vs : List Nat} (hv : vs.Nodup)
    (s : LState) (ch : Bool) (q : Nat) :
    ∀ x ∈ s.liveAtTail q, x ∈ (propagate ps vs (s, ch)).1.liveAtTail q := by
  obtain ⟨t, ht, _⟩ := propagate_tail_extend hv s ch q
  rw [ht]
  intro x hx
  exact List.mem_append_left _ hx

theorem propagate_tail_len_le {ps vs : List Nat} (hv : vs.Nodup)
    (s : LState) (ch : Bool) (q : Nat) :
    (s.liveAtTail q).length ≤ ((propagate ps vs (s, ch)).1.liveAtTail q).length := by
  obtain ⟨t, ht, _⟩ := propagate_tail_extend hv s ch q
  rw [ht, List.length_append]
  exact Nat.le_add_right _ _

theorem propagate_tail_unchanged {ps vs : List Nat} (hv : vs.Nodup)
    (s : LState) (ch : Bool) {q : Nat} (hq : q ∉ ps) :
    (propagate ps vs (s, ch)).1.liveAtTail q = s.liveAtTail q := by
  induction ps generalizing s ch with
  | nil => rfl
  | cons p0 ps ih =>
    have hq0 : q ≠ p0 := fun h => hq (h ▸ List.mem_cons_self p0 ps)
    have hqs : q ∉ ps := fun h => hq (List.mem_cons_of_mem _ h)
    rw [propagate_cons, addAll_spec hv, ih _ _ hqs]
    exact upd_apply_ne _ _ _ hq0

theorem propagate_tail_all {ps vs : List Nat} (hv : vs.Nodup)
    (s : LState) (ch : Bool) :
    ∀ p ∈ ps, ∀ v ∈ vs, v ∈ (propagate ps vs (s, ch)).1.liveAtTail p := by
  induction ps generalizing s ch with
  | nil => intro p hp; cases hp
  | cons p0 ps ih =>
    intro p hp v hvm
    rw [propagate_cons, addAll_spec hv]
    rcases List.mem_cons.mp hp with rfl | hps
    · refine propagate_tail_mono hv _ _ p v ?_
      show v ∈ upd s.liveAtTail p _ p
      rw [upd_apply_same, List.mem_append]
      by_cases hin : v ∈ s.liveAtTail p
      · exact Or.inl hin
      · exact Or.inr (List.mem_filter.mpr ⟨hvm, by simpa using hin⟩)
    · exact ih _ _ p hps v hvm

theorem propagate_dirty {ps vs : List Nat} (hv : vs.Nodup)
    (s : LState) (ch : Bool) (q : Nat) :
    (propagate ps vs (s, ch)).1.dirty q =
      (s.dirty q ||
        (decide (q ∈ ps) && vs.any (fun v => decide (v ∉ s.liveAtTail q)))) := by
  induction ps generalizing s ch with
  | nil => simp [propagate]
  | cons p0 ps ih =>
    rw [propagate_cons, propagate_pair,
      ih (addAll vs (s, ch) p0).1 (addAll vs (s, ch) p0).2,
      addAll_fst_dirty hv, addAll_fst_tail hv]
    by_cases hq : q = p0
    · subst hq
      simp only [upd_apply_same]
      have hany1 : vs.any (fun v => decide (v ∉
          s.liveAtTail q ++ vs.filter (fun w => decide (w ∉ s.liveAtTail q)))) =
          false := by
        simp only [List.any_eq_false, decide_eq_true_eq]
        intro v hvm hcon
        rw [List.mem_append] at hcon
        push_neg at hcon
        exact hcon.2 (List.mem_filter.mpr ⟨hvm, by simpa using hcon.1⟩)
      rw [hany1]
      simp only [Bool.and_false, Bool.or_false]
      have hmemq : (decide (q ∈ q :: ps) : Bool) = true :=
        decide_eq_true (List.mem_cons_self q ps)
      rw [hmemq]
      by_cases hemp : (vs.filter (fun v => decide (v ∉ s.liveAtTail q))).isEmpty = true
      · rw [if_pos hemp]
        have hany : vs.any (fun v => decide (v ∉ s.liveAtTail q)) = false := by
          rw [List.isEmpty_iff] at hemp
          simp only [List.any_eq_false, decide_eq_true_eq]
          intro v hvm hcon
          have hvf : v ∈ vs.filter (fun v => decide (v ∉ s.liveAtTail q)) :=
            List.mem_filter.mpr ⟨hvm, by simpa using hcon⟩
          rw [hemp] at hvf
          cases hvf
        rw [hany]
        simp
      · rw [if_neg hemp]
        simp only [upd_apply_same]
        have hany : vs.any (fun v => decide (v ∉ s.liveAtTail q)) = true := by
          have hne : (vs.filter (fun v => decide (v ∉ s.liveAtTail q))).isEmpty = false := by
            cases h : (vs.filter (fun v => decide (v ∉ s.liveAtTail q))).isEmpty
            · rfl
            · exact absurd h hemp
          rcases List.isEmpty_eq_false_iff_exists_mem.mp hne with ⟨v, hvf⟩
          have hvf2 := List.mem_filter.mp hvf
          exact List.any_eq_true.mpr ⟨v, hvf2.1, hvf2.2⟩
        rw [hany]
        simp
    · simp only [upd_apply_ne _ _ _ hq]
      have hdirty : (if (vs.filter (fun v => decide (v ∉ s.liveAtTail p0))).isEmpty = true
          then s.dirty
          else upd s.dirty p0 true) q = s.dirty q := by
        split
        · rfl
        · exact upd_apply_ne _ _ _ hq
      rw [hdirty]
      have hmem : (decide (q ∈ p0 :: ps) : Bool) = decide (q ∈ ps) := by
        simp [List.mem_cons, hq]
      rw [hmem]

theorem propagate_dirty_mono {ps vs : List Nat} (hv : vs.Nodup)
    (s : LState) (ch : Bool) {q : Nat} (h : s.dirty q = true) :
    (propagate ps vs (s, ch)).1.dirty q = true := by
  rw [propagate_dirty hv, h, Bool.true_or]

theorem propagate_nodup {ps vs : List Nat} (hv : vs.Nodup)
    (s : LState) (ch : Bool) (q : Nat) (h : (s.liveAtTail q).Nodup) :
    ((propagate ps vs (s, ch)).1.liveAtTail q).Nodup := by
  induction ps generalizing s ch with
  | nil => exact h
  | cons p0 ps ih =>
    rw [propagate_cons, addAll_spec hv]
    refine ih _ _ ?_
    by_cases hq : q = p0
    · subst hq
      show ((upd s.liveAtTail q _) q).Nodup
      rw [upd_apply_same]
      rw [List.nodup_append]
      refine ⟨h, hv.filter _, ?_⟩
      intro a ha hf
      exact absurd ha (by simpa using (List.mem_filter.mp hf).2)
    · show ((upd s.liveAtTail p0 _) q).Nodup
      rw [upd_apply_ne _ _ _ hq]
      exact h

theorem propagate_tail_id_of_sub {ps vs : List Nat} (hv : vs.Nodup)
    (s : LState) (ch : Bool) {q : Nat}
    (hall : ∀ v ∈ vs, v ∈ s.liveAtTail q) :
    (propagate ps vs (s, ch)).1.liveAtTail q = s.liveAtTail q := by
  induction ps generalizing s ch with
  | nil => rfl
  | cons p0 ps ih =>
    rw [propagate_cons, propagate_pair]
    have h2 : ∀ v ∈ vs, v ∈ (addAll vs (s, ch) p0).1.liveAtTail q := by
      intro v hvm
      rw [addAll_fst_tail hv]
      by_cases hq : q = p0
      · subst hq
        rw [upd_apply_same]
        exact List.mem_append_left _ (hall v hvm)
      · rw [upd_apply_ne _ _ _ hq]
        exact hall v hvm
    rw [ih (addAll vs (s, ch) p0).1 (addAll vs (s, ch) p0).2 h2,
      addAll_fst_tail hv]
    by_cases hq : q = p0
    · subst hq
      rw [upd_apply_same]
      have hfe : vs.filter (fun v => decide (v ∉ s.liveAtTail q)) = [] := by
        rw [List.filter_eq_nil_iff]
        intro v hvm
        simpa using hall v hvm
      rw [hfe, List.append_nil]
    · exact upd_apply_ne _ _ _ hq

theorem propagate_dirty_of_tail_ne {ps vs : List Nat} (hv : vs.Nodup)
    (s : LState) (ch : Bool) {q : Nat}
    (h : (propagate ps vs (s, ch)).1.liveAtTail q ≠ s.liveAtTail q) :
    (propagate ps vs (s, ch)).1.dirty q = true := by
  have hqs : q ∈ ps := by
    by_contra hq
    exact h (propagate_tail_unchanged hv s ch hq)
  have hnew : ∃ v ∈ vs, v ∉ s.liveAtTail q := by
    by_contra hall
    push_neg at hall
    exact h (propagate_tail_id_of_sub hv s ch hall)
  obtain ⟨v, hvm, hvn⟩ := hnew
  have hany : vs.any (fun v => decide (v ∉ s.liveAtTail q)) = true :=
    List.any_eq_true.mpr ⟨v, hvm, by simpa using hvn⟩
  rw [propagate_dirty hv, hany, decide_eq_true hqs]
  simp

theorem propagate_changed {ps vs : List Nat} (hv : vs.Nodup)
    (s : LState) (ch : Bool) (h : (propagate ps vs (s, ch)).2 = true) :
    ch = true ∨ ∃ p ∈ ps,
      (s.liveAtTail p).length < ((propagate ps vs (s, ch)).1.liveAtTail p).length := by
  induction ps generalizing s ch with
  | nil => exact Or.inl h
  | cons p0 ps ih =>
    rw [propagate_cons, propagate_pair] at h ⊢
    rcases ih (addAll vs (s, ch) p0).1 (addAll vs (s, ch) p0).2 h with
      hch | ⟨p, hps, hlt⟩
    · rw [addAll_snd hv] at hch
      simp only [Bool.or_eq_true, Bool.and_eq_true, Bool.not_eq_true'] at hch
      rcases hch with hch0 | ⟨hne, _⟩
      · exact Or.inl hch0
      · right
        refine ⟨p0, List.mem_cons_self _ _, ?_⟩
        have h1 : (s.liveAtTail p0).length <
            ((addAll vs (s, ch) p0).1.liveAtTail p0).length := by
          rw [addAll_fst_tail hv, upd_apply_same, List.length_append]
          have hpos : 0 < (vs.filter (fun v => decide (v ∉ s.liveAtTail p0))).length := by
            cases hl : vs.filter (fun v => decide (v ∉ s.liveAtTail p0)) with
            | nil => rw [hl] at hne; simp at hne
            | cons a l => simp
          omega
        exact Nat.lt_of_lt_of_le h1 (propagate_tail_len_le hv _ _ p0)
    · right
      refine ⟨p, List.mem_cons_of_mem _ hps, ?_⟩
      have h0 : (s.liveAtTail p).length ≤
          ((addAll vs (s, ch) p0).1.liveAtTail p).length := by
        rw [addAll_fst_tail hv]
        by_cases hq : p = p0
        · subst hq
          rw [upd_apply_same, List.length_append]
          exact Nat.le_add_right _ _
        · rw [upd_apply_ne _ _ _ hq]
      exact Nat.lt_of_le_of_lt h0 hlt

/-- The delta a scan of block b computes: the live-before-first set
minus the entries already recorded in liveAtHead[b], with the
size-equality shortcut of the source. -/
def deltaOf (accepts : Nat → Bool) (block : BasicBlock) (s : LState)
    (b : Nat) : List Nat :=
  let ws := liveBeforeFirst accepts block (s.liveAtTail b)
  let lah := s.liveAtHead b
  if ws.length = lah.length then [] else lah.foldl wsRemove ws

theorem deltaOf_eq {accepts : Nat → Bool} {block : BasicBlock} {s : LState}
    {b : Nat} :
    deltaOf accepts block s b =
      if (liveBeforeFirst accepts block (s.liveAtTail b)).length =
          (s.liveAtHead b).length
      then []
      else (s.liveAtHead b).foldl wsRemove
        (liveBeforeFirst accepts block (s.liveAtTail b)) :=
  rfl

theorem processBlock_none {accepts : Nat → Bool} {code : Code} {b : Nat}
    {sc : LState × Bool} (hb : code.getD b none = none) :
    processBlock accepts code b sc = sc := by
  unfold processBlock
  rw [hb]

theorem processBlock_clean {accepts : Nat → Bool} {code : Code} {b : Nat}
    {block : BasicBlock} {sc : LState × Bool}
    (hb : code.getD b none = some block) (hd : sc.1.dirty b = false) :
    processBlock accepts code b sc = sc := by
  unfold processBlock
  rw [hb]
  simp only [hd, if_true]

/-- The state after quickClear of block b's dirty bit. -/
def clearedState (s : LState) (b : Nat) : LState :=
  { s with dirty := upd s.dirty b false }

theorem clearedState_tail {s : LState} {b : Nat} :
    (clearedState s b).liveAtTail = s.liveAtTail :=
  rfl

theorem clearedState_head {s : LState} {b : Nat} :
    (clearedState s b).liveAtHead = s.liveAtHead :=
  rfl

theorem clearedState_dirty {s : LState} {b : Nat} :
    (clearedState s b).dirty = upd s.dirty b false :=
  rfl

/-- The state after the delta has been appended to liveAtHead[b] and
the dirty bit of b cleared, just before propagation to predecessors. -/
def midState (accepts : Nat → Bool) (block : BasicBlock) (s : LState)
    (b : Nat) : LState :=
  { s with dirty := upd s.dirty b false,
           liveAtHead := upd s.liveAtHead b
             (s.liveAtHead b ++ deltaOf accepts block s b) }

theorem midState_tail {accepts : Nat → Bool} {block : BasicBlock}
    {s : LState} {b : Nat} :
    (midState accepts block s b).liveAtTail = s.liveAtTail :=
  rfl

theorem midState_head {accepts : Nat → Bool} {block : BasicBlock}
    {s : LState} {b : Nat} :
    (midState accepts block s b).liveAtHead =
      upd s.liveAtHead b (s.liveAtHead b ++ deltaOf accepts block s b) :=
  rfl

theorem midState_dirty {accepts : Nat → Bool} {block : BasicBlock}
    {s : LState} {b : Nat} :
    (midState accepts block s b).dirty = upd s.dirty b false :=
  rfl

theorem processBlock_dirty_eq {accepts : Nat → Bool} {code : Code} {b : Nat}
    {block : BasicBlock} {s : LState} {ch : Bool}
    (hb : code.getD b none = some block) (hd : s.dirty b = true) :
    processBlock accepts code b (s, ch) =
      if (deltaOf accepts block s b).isEmpty
      then (clearedState s b, ch)
      else propagate block.preds (deltaOf accepts block s b)
        (midState accepts block s b, ch) := by
  have hcond : ¬ (s.dirty b = false) := by
    rw [hd]
    intro hcon
    cases hcon
  simp only [processBlock, hb]
  rw [if_neg hcond]
  rfl

theorem nodup_deltaOf {accepts : Nat → Bool} {block : BasicBlock}
    {s : LState} {b : Nat} : (deltaOf accepts block s b).Nodup := by
  rw [deltaOf_eq]
  split
  · exact List.nodup_nil
  · exact nodup_foldl_wsRemove nodup_liveBeforeFirst

theorem deltaOf_sub {accepts : Nat → Bool} {block : BasicBlock}
    {s : LState} {b : Nat} :
    ∀ x ∈ deltaOf accepts block s b,
      x ∈ liveBeforeFirst accepts block (s.liveAtTail b) := by
  rw [deltaOf_eq]
  split
  · intro x hx
    cases hx
  · intro x hx
    exact (mem_foldl_wsRemove.mp hx).1

theorem deltaOf_nonempty_eq {accepts : Nat → Bool} {block : BasicBlock}
    {s : LState} {b : Nat}
    (h : (deltaOf accepts block s b).isEmpty = false) :
    deltaOf accepts block s b =
      (s.liveAtHead b).foldl wsRemove
        (liveBeforeFirst accepts block (s.liveAtTail b)) := by
  rw [deltaOf_eq] at h ⊢
  split at h
  · cases h
  · next hlen => rw [if_neg hlen]

theorem nodup_sub_length_imp {l l2 : List Nat} (hn : l.Nodup)
    (hn2 : l2.Nodup) (hsub : ∀ x ∈ l2, x ∈ l) (hlen : l.length = l2.length) :
    ∀ x ∈ l, x ∈ l2 := by
  intro x hx
  have hcard : l.toFinset = l2.toFinset := by
    refine (Finset.eq_of_subset_of_card_le ?_ ?_).symm
    · intro a ha
      exact List.mem_toFinset.mpr (hsub a (List.mem_toFinset.mp ha))
    · rw [List.toFinset_card_of_nodup hn, List.toFinset_card_of_nodup hn2,
        hlen]
  have : x ∈ l2.toFinset := hcard ▸ List.mem_toFinset.mpr hx
  exact List.mem_toFinset.mp this

theorem deltaOf_empty_imp {accepts : Nat → Bool} {block : BasicBlock}
    {s : LState} {b : Nat}
    (hnd : (s.liveAtHead b).Nodup)
    (hsub : ∀ x ∈ s.liveAtHead b,
      x ∈ liveBeforeFirst accepts block (s.liveAtTail b))
    (h : (deltaOf accepts block s b).isEmpty = true) :
    ∀ x ∈ liveBeforeFirst accepts block (s.liveAtTail b),
      x ∈ s.liveAtHead b := by
  rw [deltaOf_eq] at h
  split at h
  · next hlen =>
    exact nodup_sub_length_imp nodup_liveBeforeFirst hnd hsub hlen
  · next hlen =>
    intro x hx
    rw [List.isEmpty_iff] at h
    by_contra hxl
    have : x ∈ (s.liveAtHead b).foldl wsRemove
        (liveBeforeFirst accepts block (s.liveAtTail b)) :=
      mem_foldl_wsRemove.mpr ⟨hx, hxl⟩
    rw [h] at this
    cases this

theorem deltaOf_mem_iff {accepts : Nat → Bool} {block : BasicBlock}
    {s : LState} {b : Nat}
    (h : (deltaOf accepts block s b).isEmpty = false) {x : Nat} :
    x ∈ deltaOf accepts block s b ↔
      x ∈ liveBeforeFirst accepts block (s.liveAtTail b) ∧
      x ∉ s.liveAtHead b := by
  rw [deltaOf_nonempty_eq h, mem_foldl_wsRemove]

/-- The invariant maintained by the fixed-point loop.  liveAtHead[b] is
duplicate-free and lies between what previous scans discovered and the
current scan result; every clean block's scan result is already
recorded; heads were pushed to all predecessors' tails; and tail
entries are justified either by the seed (terminal late uses) or by a
successor's head. -/
structure Inv (accepts : Nat → Bool) (code : Code) (s : LState) : Prop where
  tail_sub : ∀ b, ∀ x ∈ s.liveAtTail b, x ∈ allIdx code
  tail_nodup : ∀ b, (s.liveAtTail b).Nodup
  head_nodup : ∀ b, (s.liveAtHead b).Nodup
  late_sub : ∀ b block, code.getD b none = some block →
    ∀ x ∈ lateUsesOfTerminal accepts block, x ∈ s.liveAtTail b
  head_sub_scan : ∀ b block, code.getD b none = some block →
    ∀ x ∈ s.liveAtHead b, x ∈ liveBeforeFirst accepts block (s.liveAtTail b)
  clean_scan_sub_head : ∀ b block, code.getD b none = some block →
    s.dirty b = false →
    ∀ x ∈ liveBeforeFirst accepts block (s.liveAtTail b), x ∈ s.liveAtHead b
  head_sub_preds_tail : ∀ b block, code.getD b none = some block →
    ∀ p ∈ block.preds, ∀ x ∈ s.liveAtHead b, x ∈ s.liveAtTail p
  tail_from : ∀ b, ∀ x ∈ s.liveAtTail b,
    (∃ block, code.getD b none = some block ∧
      x ∈ lateUsesOfTerminal accepts block) ∨
    (∃ q qblock, code.getD q none = some qblock ∧ b ∈ qblock.preds ∧
      x ∈ s.liveAtHead q)

theorem initState_tail_some {accepts : Nat → Bool} {code : Code} {b : Nat}
    {block : BasicBlock} (hb : code.getD b none = some block) :
    (initState accepts code).liveAtTail b = lateUsesOfTerminal accepts block := by
  show (match code.getD b none with
    | none => []
    | some block => lateUsesOfTerminal accepts block) = _
  rw [hb]

theorem initState_tail_none {accepts : Nat → Bool} {code : Code} {b : Nat}
    (hb : code.getD b none = none) :
    (initState accepts code).liveAtTail b = [] := by
  show (match code.getD b none with
    | none => []
    | some block => lateUsesOfTerminal accepts block) = _
  rw [hb]

theorem inv_init (accepts : Nat → Bool) (code : Code) :
    Inv accepts code (initState accepts code) := by
  constructor
  · intro b x hx
    cases hb : code.getD b none with
    | none => rw [initState_tail_none hb] at hx; cases hx
    | some block =>
      rw [initState_tail_some hb] at hx
      exact mem_allIdx (getD_mem_of_eq_some hb) (lateUsesOfTerminal_sub hx)
  · intro b
    cases hb : code.getD b none with
    | none => rw [initState_tail_none hb]; exact List.nodup_nil
    | some block => rw [initState_tail_some hb]; exact nodup_lateUsesOfTerminal
  · intro b
    exact List.nodup_nil
  · intro b block hb x hx
    rw [initState_tail_some hb]
    exact hx
  · intro b block hb x hx
    cases hx
  · intro b block hb hd x hx
    exfalso
    have hlt : b < code.length := lt_length_of_getD_eq_some hb
    have : (initState accepts code).dirty b = true := decide_eq_true hlt
    rw [hd] at this
    cases this
  · intro b block hb p hp x hx
    cases hx
  · intro b x hx
    cases hb : code.getD b none with
    | none => rw [initState_tail_none hb] at hx; cases hx
    | some block =>
      rw [initState_tail_some hb] at hx
      exact Or.inl ⟨block, rfl, hx⟩

theorem inv_processBlock {accepts : Nat → Bool} {code : Code} {b : Nat}
    {s : LState} {ch : Bool} (h : Inv accepts code s) :
    Inv accepts code (processBlock accepts code b (s, ch)).1 := by
  cases hb : code.getD b none with
  | none => rw [processBlock_none hb]; exact h
  | some block =>
    cases hd : s.dirty b with
    | false => rw [processBlock_clean hb hd]; exact h
    | true =>
      rw [processBlock_dirty_eq hb hd]
      by_cases hde : (deltaOf accepts block s b).isEmpty = true
      · rw [if_pos hde]
        refine ⟨h.tail_sub, h.tail_nodup, h.head_nodup, h.late_sub,
          h.head_sub_scan, ?_, h.head_sub_preds_tail, h.tail_from⟩
        intro q qb hq hdq x hx
        by_cases hqb : q = b
        · subst hqb
          have hqb2 : qb = block := Option.some.inj (hq.symm.trans hb)
          subst hqb2
          exact deltaOf_empty_imp (h.head_nodup q)
            (h.head_sub_scan q qb hq) hde x hx
        · rw [clearedState_dirty, upd_apply_ne _ _ _ hqb] at hdq
          exact h.clean_scan_sub_head q qb hq hdq x hx
      · rw [if_neg hde]
        have hde2 : (deltaOf accepts block s b).isEmpty = false := by
          cases hcase : (deltaOf accepts block s b).isEmpty
          · rfl
          · exact absurd hcase hde
        have hΔn : (deltaOf accepts block s b).Nodup := nodup_deltaOf
        have hmid := @midState_tail accepts block s b
        have htmono : ∀ q, ∀ y ∈ s.liveAtTail q,
            y ∈ (propagate block.preds (deltaOf accepts block s b)
              (midState accepts block s b, ch)).1.liveAtTail q := by
          intro q y hy
          refine propagate_tail_mono hΔn _ _ q y ?_
          rw [hmid]
          exact hy
        have hheads : (propagate block.preds (deltaOf accepts block s b)
            (midState accepts block s b, ch)).1.liveAtHead =
            upd s.liveAtHead b
              (s.liveAtHead b ++ deltaOf accepts block s b) := by
          rw [propagate_liveAtHead hΔn, midState_head]
        have hheadmono : ∀ r, ∀ y ∈ s.liveAtHead r,
            y ∈ (propagate block.preds (deltaOf accepts block s b)
              (midState accepts block s b, ch)).1.liveAtHead r := by
          intro r y hy
          rw [hheads]
          by_cases hr : r = b
          · subst hr
            rw [upd_apply_same]
            exact List.mem_append_left _ hy
          · rw [upd_apply_ne _ _ _ hr]
            exact hy
        have hΔhead : ∀ y ∈ deltaOf accepts block s b,
            y ∈ (propagate block.preds (deltaOf accepts block s b)
              (midState accepts block s b, ch)).1.liveAtHead b := by
          intro y hy
          rw [hheads, upd_apply_same]
          exact List.mem_append_right _ hy
        have hscmono : ∀ q qb, ∀ y ∈ liveBeforeFirst accepts qb (s.liveAtTail q),
            y ∈ liveBeforeFirst accepts qb
              ((propagate block.preds (deltaOf accepts block s b)
                (midState accepts block s b, ch)).1.liveAtTail q) := by
          intro q qb
          exact liveBeforeFirst_mono (htmono q)
        constructor
        · -- tail_sub
          intro q x hx
          obtain ⟨t, ht, hts⟩ := propagate_tail_extend hΔn
            (midState accepts block s b) ch q
          rw [ht] at hx
          rcases List.mem_append.mp hx with hl | hr
          · rw [hmid] at hl
            exact h.tail_sub q x hl
          · have hxd := hts x hr
            rcases liveBeforeFirst_sub (deltaOf_sub x hxd) with hw | hbk
            · exact h.tail_sub b x hw
            · exact mem_allIdx (getD_mem_of_eq_some hb) hbk
        · -- tail_nodup
          intro q
          refine propagate_nodup hΔn _ _ q ?_
          rw [hmid]
          exact h.tail_nodup q
        · -- head_nodup
          intro q
          rw [hheads]
          by_cases hq : q = b
          · subst hq
            rw [upd_apply_same]
            refine (h.head_nodup q).append hΔn ?_
            intro a ha had
            exact ((deltaOf_mem_iff hde2).mp had).2 ha
          · rw [upd_apply_ne _ _ _ hq]
            exact h.head_nodup q
        · -- late_sub
          intro q qb hq x hx
          exact htmono q x (h.late_sub q qb hq x hx)
        · -- head_sub_scan
          intro q qb hq x hx
          rw [hheads] at hx
          by_cases hqb : q = b
          · subst hqb
            have hqb2 : qb = block := Option.some.inj (hq.symm.trans hb)
            subst hqb2
            rw [upd_apply_same] at hx
            rcases List.mem_append.mp hx with hl | hr
            · exact hscmono q qb x (h.head_sub_scan q qb hq x hl)
            · exact hscmono q qb x (deltaOf_sub x hr)
          · rw [upd_apply_ne _ _ _ hqb] at hx
            exact hscmono q qb x (h.head_sub_scan q qb hq x hx)
        · -- clean_scan_sub_head
          intro q qb hq hdq x hx
          have htq : (propagate block.preds (deltaOf accepts block s b)
              (midState accepts block s b, ch)).1.liveAtTail q =
              s.liveAtTail q := by
            by_contra hne
            have hne2 : (propagate block.preds (deltaOf accepts block s b)
                (midState accepts block s b, ch)).1.liveAtTail q ≠
                (midState accepts block s b).liveAtTail q := by
              rw [hmid]
              exact hne
            rw [propagate_dirty_of_tail_ne hΔn _ _ hne2] at hdq
            cases hdq
          have hdq2 : (midState accepts block s b).dirty q = false := by
            rw [propagate_dirty hΔn] at hdq
            cases hcase : (midState accepts block s b).dirty q
            · rfl
            · rw [hcase] at hdq
              simp at hdq
          rw [htq] at hx
          rw [hheads]
          by_cases hqb : q = b
          · subst hqb
            have hqb2 : qb = block := Option.some.inj (hq.symm.trans hb)
            subst hqb2
            rw [upd_apply_same]
            by_cases hxh : x ∈ s.liveAtHead q
            · exact List.mem_append_left _ hxh
            · refine List.mem_append_right _ ?_
              exact (deltaOf_mem_iff hde2).mpr ⟨hx, hxh⟩
          · rw [midState_dirty, upd_apply_ne _ _ _ hqb] at hdq2
            rw [upd_apply_ne _ _ _ hqb]
            exact h.clean_scan_sub_head q qb hq hdq2 x hx
        · -- head_sub_preds_tail
          intro q qb hq p hp x hx
          rw [hheads] at hx
          by_cases hqb : q = b
          · subst hqb
            have hqb2 : qb = block := Option.some.inj (hq.symm.trans hb)
            subst hqb2
            rw [upd_apply_same] at hx
            rcases List.mem_append.mp hx with hl | hr
            · exact htmono p x (h.head_sub_preds_tail q qb hq p hp x hl)
            · exact propagate_tail_all hΔn _ _ p hp x hr
          · rw [upd_apply_ne _ _ _ hqb] at hx
            exact htmono p x (h.head_sub_preds_tail q qb hq p hp x hx)
        · -- tail_from
          intro q x hx
          have hold : x ∈ s.liveAtTail q →
              (∃ blockq, code.getD q none = some blockq ∧
                x ∈ lateUsesOfTerminal accepts blockq) ∨
              (∃ r rb, code.getD r none = some rb ∧ q ∈ rb.preds ∧
                x ∈ (propagate block.preds (deltaOf accepts block s b)
                  (midState accepts block s b, ch)).1.liveAtHead r) := by
            intro hxs
            rcases h.tail_from q x hxs with hlate | ⟨r, rb, hr, hrp, hxr⟩
            · exact Or.inl hlate
            · exact Or.inr ⟨r, rb, hr, hrp, hheadmono r x hxr⟩
          by_cases hqp : q ∈ block.preds
          · obtain ⟨t, ht, hts⟩ := propagate_tail_extend hΔn
              (midState accepts block s b) ch q
            rw [ht] at hx
            rcases List.mem_append.mp hx with hl | hr
            · rw [hmid] at hl
              exact hold hl
            · exact Or.inr ⟨b, block, hb, hqp, hΔhead x (hts x hr)⟩
          · rw [propagate_tail_unchanged hΔn _ _ hqp, hmid] at hx
            exact hold hx

/-- Well-formedness of the CFG: every predecessor index names a slot of
the code.  Malformed predecessor references are a contract violation in
the source (they would index out of bounds). -/
def WF (code : Code) : Bool :=
  code.all (fun ob =>
    match ob with
    | none => true
    | some block => block.preds.all (fun p => decide (p < code.length)))

theorem WF_preds {code : Code} {block : BasicBlock} {b : Nat}
    (hw : WF code = true) (hb : code.getD b none = some block) :
    ∀ p ∈ block.preds, p < code.length := by
  intro p hp
  have hmem : some block ∈ code := getD_mem_of_eq_some hb
  rw [WF, List.all_eq_true] at hw
  have hall := hw (some block) hmem
  simp only [List.all_eq_true, decide_eq_true_eq] at hall
  exact hall p hp

/-- The total number of entries across all tail sets of real block
indices: the measure that strictly grows whenever `changed` is set. -/
def totalTail (code : Code) (s : LState) : Nat :=
  ∑ q ∈ Finset.range code.length, (s.liveAtTail q).length

theorem propagate_snd_mono {ps vs : List Nat} (hv : vs.Nodup)
    (s : LState) (ch : Bool) (h : ch = true) :
    (propagate ps vs (s, ch)).2 = true := by
  induction ps generalizing s ch with
  | nil => exact h
  | cons p0 ps ih =>
    rw [propagate_cons, propagate_pair]
    refine ih _ _ ?_
    rw [addAll_snd hv, h, Bool.true_or]

theorem propagate_snd_false_dirty {ps vs : List Nat} (hv : vs.Nodup)
    (s : LState) (ch : Bool) (h : (propagate ps vs (s, ch)).2 = false) :
    ∀ q, (propagate ps vs (s, ch)).1.dirty q = s.dirty q := by
  induction ps generalizing s ch with
  | nil => intro q; rfl
  | cons p0 ps ih =>
    rw [propagate_cons, propagate_pair] at h ⊢
    have hch1 : (addAll vs (s, ch) p0).2 = false := by
      cases hcase : (addAll vs (s, ch) p0).2
      · rfl
      · exfalso
        have hmono : (propagate ps vs ((addAll vs (s, ch) p0).1,
            (addAll vs (s, ch) p0).2)).2 = true :=
          propagate_snd_mono hv _ _ hcase
        rw [h] at hmono
        cases hmono
    intro q
    rw [ih (addAll vs (s, ch) p0).1 (addAll vs (s, ch) p0).2 h q,
      addAll_fst_dirty hv]
    rw [addAll_snd hv] at hch1
    split
    · rfl
    · next hne =>
      have hdp : s.dirty p0 = true := by
        cases hcase : s.dirty p0
        · exfalso
          have hne2 : (vs.filter (fun v => decide (v ∉ s.liveAtTail p0))).isEmpty
              = false := by
            cases hcase2 : (vs.filter (fun v => decide (v ∉ s.liveAtTail p0))).isEmpty
            · rfl
            · exact absurd hcase2 hne
          rw [hcase, hne2] at hch1
          simp at hch1
        · rfl
      rw [upd_eq_of hdp]

theorem processBlock_snd_mono {accepts : Nat → Bool} {code : Code} {b : Nat}
    {s : LState} {ch : Bool} (h : ch = true) :
    (processBlock accepts code b (s, ch)).2 = true := by
  cases hb : code.getD b none with
  | none => rw [processBlock_none hb]; exact h
  | some block =>
    cases hd : s.dirty b with
    | false => rw [processBlock_clean hb hd]; exact h
    | true =>
      rw [processBlock_dirty_eq hb hd]
      split
      · exact h
      · exact propagate_snd_mono nodup_deltaOf _ _ h

theorem processBlock_clean_preserve {accepts : Nat → Bool} {code : Code}
    {b : Nat} {s : LState} {ch : Bool} {q : Nat}
    (h2 : (processBlock accepts code b (s, ch)).2 = false)
    (hq : s.dirty q = false) :
    (processBlock accepts code b (s, ch)).1.dirty q = false := by
  cases hb : code.getD b none with
  | none => rw [processBlock_none hb]; exact hq
  | some block =>
    cases hd : s.dirty b with
    | false => rw [processBlock_clean hb hd]; exact hq
    | true =>
      rw [processBlock_dirty_eq hb hd] at h2 ⊢
      by_cases hde : (deltaOf accepts block s b).isEmpty = true
      · rw [if_pos hde]
        rw [clearedState_dirty]
        by_cases hqb : q = b
        · subst hqb; rw [upd_apply_same]
        · rw [upd_apply_ne _ _ _ hqb]; exact hq
      · rw [if_neg hde] at h2 ⊢
        rw [propagate_snd_false_dirty nodup_deltaOf _ _ h2 q, midState_dirty]
        by_cases hqb : q = b
        · subst hqb; rw [upd_apply_same]
        · rw [upd_apply_ne _ _ _ hqb]; exact hq

theorem processBlock_self_clean {accepts : Nat → Bool} {code : Code}
    {b : Nat} {block : BasicBlock} {s : LState} {ch : Bool}
    (hb : code.getD b none = some block)
    (h2 : (processBlock accepts code b (s, ch)).2 = false) :
    (processBlock accepts code b (s, ch)).1.dirty b = false := by
  cases hd : s.dirty b with
  | false => rw [processBlock_clean hb hd]; exact hd
  | true =>
    rw [processBlock_dirty_eq hb hd] at h2 ⊢
    by_cases hde : (deltaOf accepts block s b).isEmpty = true
    · rw [if_pos hde, clearedState_dirty, upd_apply_same]
    · rw [if_neg hde] at h2 ⊢
      rw [propagate_snd_false_dirty nodup_deltaOf _ _ h2 b, midState_dirty,
        upd_apply_same]

theorem processBlock_tail_len_le {accepts : Nat → Bool} {code : Code}
    {b : Nat} {s : LState} {ch : Bool} (q : Nat) :
    (s.liveAtTail q).length ≤
      ((processBlock accepts code b (s, ch)).1.liveAtTail q).length := by
  cases hb : code.getD b none with
  | none => rw [processBlock_none hb]
  | some block =>
    cases hd : s.dirty b with
    | false => rw [processBlock_clean hb hd]
    | true =>
      rw [processBlock_dirty_eq hb hd]
      split
      · exact Nat.le_refl _
      · calc (s.liveAtTail q).length
            = ((midState accepts block s b).liveAtTail q).length := by
              rw [midState_tail]
          _ ≤ _ := propagate_tail_len_le nodup_deltaOf _ _ q

theorem processBlock_total_le {accepts : Nat → Bool} {code : Code}
    {b : Nat} {s : LState} {ch : Bool} :
    totalTail code s ≤
      totalTail code (processBlock accepts code b (s, ch)).1 := by
  unfold totalTail
  exact Finset.sum_le_sum (fun q _ => processBlock_tail_len_le q)

theorem processBlock_changed_growth {accepts : Nat → Bool} {code : Code}
    {b : Nat} {s : LState} {ch : Bool} (hw : WF code = true)
    (h2 : (processBlock accepts code b (s, ch)).2 = true) :
    ch = true ∨
      totalTail code s < totalTail code (processBlock accepts code b (s, ch)).1 := by
  cases hb : code.getD b none with
  | none => rw [processBlock_none hb] at h2; exact Or.inl h2
  | some block =>
    cases hd : s.dirty b with
    | false => rw [processBlock_clean hb hd] at h2; exact Or.inl h2
    | true =>
      rw [processBlock_dirty_eq hb hd] at h2 ⊢
      by_cases hde : (deltaOf accepts block s b).isEmpty = true
      · rw [if_pos hde] at h2
        exact Or.inl h2
      · rw [if_neg hde] at h2 ⊢
        rcases propagate_changed nodup_deltaOf
          (midState accepts block s b) ch h2 with hch | ⟨p, hp, hlt⟩
        · exact Or.inl hch
        · right
          unfold totalTail
          refine Finset.sum_lt_sum (fun q _ => ?_) ⟨p, ?_, ?_⟩
          · calc (s.liveAtTail q).length
                = ((midState accepts block s b).liveAtTail q).length := by
                  rw [midState_tail]
              _ ≤ _ := propagate_tail_len_le nodup_deltaOf _ _ q
          · exact Finset.mem_range.mpr (WF_preds hw hb p hp)
          · rw [midState_tail] at hlt
            exact hlt

theorem passAux_inv {accepts : Nat → Bool} {code : Code} {k : Nat}
    {s : LState} {ch : Bool} (h : Inv accepts code s) :
    Inv accepts code (passAux accepts code k (s, ch)).1 := by
  induction k generalizing s ch with
  | zero => exact h
  | succ k ih =>
    show Inv accepts code
      (passAux accepts code k (processBlock accepts code k (s, ch))).1
    exact ih (inv_processBlock h)

theorem passAux_snd_mono {accepts : Nat → Bool} {code : Code} {k : Nat}
    {s : LState} {ch : Bool} (h : ch = true) :
    (passAux accepts code k (s, ch)).2 = true := by
  induction k generalizing s ch with
  | zero => exact h
  | succ k ih =>
    show (passAux accepts code k (processBlock accepts code k (s, ch))).2 = true
    exact ih (processBlock_snd_mono h)

theorem passAux_total_le {accepts : Nat → Bool} {code : Code} {k : Nat}
    {s : LState} {ch : Bool} :
    totalTail code s ≤ totalTail code (passAux accepts code k (s, ch)).1 := by
  induction k generalizing s ch with
  | zero => exact Nat.le_refl _
  | succ k ih =>
    show totalTail code s ≤
      totalTail code (passAux accepts code k (processBlock accepts code k (s, ch))).1
    exact Nat.le_trans processBlock_total_le ih

theorem passAux_changed_growth {accepts : Nat → Bool} {code : Code} {k : Nat}
    {s : LState} {ch : Bool} (hw : WF code = true)
    (h2 : (passAux accepts code k (s, ch)).2 = true) :
    ch = true ∨
      totalTail code s < totalTail code (passAux accepts code k (s, ch)).1 := by
  induction k generalizing s ch with
  | zero => exact Or.inl h2
  | succ k ih =>
    rw [show passAux accepts code (k + 1) (s, ch) =
      passAux accepts code k (processBlock accepts code k (s, ch)) from rfl] at h2 ⊢
    rcases ih h2 with hch1 | hlt
    · rcases processBlock_changed_growth hw hch1 with hch0 | hlt0
      · exact Or.inl hch0
      · exact Or.inr (Nat.lt_of_lt_of_le hlt0 passAux_total_le)
    · exact Or.inr (Nat.lt_of_le_of_lt processBlock_total_le hlt)

theorem passAux_clean {accepts : Nat → Bool} {code : Code} {k : Nat}
    {s : LState} {ch : Bool}
    (h2 : (passAux accepts code k (s, ch)).2 = false) :
    (∀ q, s.dirty q = false → (passAux accepts code k (s, ch)).1.dirty q = false) ∧
    (∀ i, i < k → code.getD i none ≠ none →
      (passAux accepts code k (s, ch)).1.dirty i = false) := by
  induction k generalizing s ch with
  | zero =>
    exact ⟨fun q hq => hq, fun i hi _ => absurd hi (Nat.not_lt_zero i)⟩
  | succ k ih =>
    rw [show passAux accepts code (k + 1) (s, ch) =
      passAux accepts code k (processBlock accepts code k (s, ch)) from rfl] at h2 ⊢
    have hmid : (processBlock accepts code k (s, ch)).2 = false := by
      cases hcase : (processBlock accepts code k (s, ch)).2
      · rfl
      · exfalso
        have hmono : (passAux accepts code k
            ((processBlock accepts code k (s, ch)).1,
             (processBlock accepts code k (s, ch)).2)).2 = true :=
          passAux_snd_mono hcase
        rw [h2] at hmono
        cases hmono
    obtain ⟨ihA, ihB⟩ := ih h2
    constructor
    · intro q hq
      exact ihA q (processBlock_clean_preserve hmid hq)
    · intro i hi hnn
      rcases Nat.lt_succ_iff_lt_or_eq.mp hi with hik | rfl
      · exact ihB i hik hnn
      · cases hbk : code.getD i none with
        | none => exact absurd hbk hnn
        | some blk => exact ihA i (processBlock_self_clean hbk hmid)

theorem loop_succ {accepts : Nat → Bool} {code : Code} {fuel : Nat}
    {s : LState} :
    loop accepts code (fuel + 1) s =
      if (passAux accepts code code.length (s, false)).2 = true
      then loop accepts code fuel (passAux accepts code code.length (s, false)).1
      else ((passAux accepts code code.length (s, false)).1, true) :=
  rfl

theorem totalTail_le_bound {accepts : Nat → Bool} {code : Code} {s : LState}
    (h : Inv accepts code s) :
    totalTail code s ≤ code.length * (allIdx code).toFinset.card := by
  unfold totalTail
  have hle : ∀ q ∈ Finset.range code.length,
      (s.liveAtTail q).length ≤ (allIdx code).toFinset.card := by
    intro q _
    calc (s.liveAtTail q).length
        = (s.liveAtTail q).toFinset.card :=
          (List.toFinset_card_of_nodup (h.tail_nodup q)).symm
      _ ≤ (allIdx code).toFinset.card := by
          refine Finset.card_le_card ?_
          intro x hx
          exact List.mem_toFinset.mpr (h.tail_sub q x (List.mem_toFinset.mp hx))
  calc ∑ q ∈ Finset.range code.length, (s.liveAtTail q).length
      ≤ ∑ _q ∈ Finset.range code.length, (allIdx code).toFinset.card :=
        Finset.sum_le_sum hle
    _ = code.length * (allIdx code).toFinset.card := by
        rw [Finset.sum_const, Finset.card_range, smul_eq_mul]

theorem loop_exits {accepts : Nat → Bool} {code : Code} (hw : WF code = true) :
    ∀ fuel (s : LState), Inv accepts code s →
      code.length * (allIdx code).toFinset.card < totalTail code s + fuel →
      (loop accepts code fuel s).2 = true := by
  intro fuel
  induction fuel with
  | zero =>
    intro s hInv hlt
    exfalso
    have hb := totalTail_le_bound hInv
    omega
  | succ fuel ih =>
    intro s hInv hlt
    by_cases hch : (passAux accepts code code.length (s, false)).2 = true
    · rw [loop_succ, if_pos hch]
      refine ih _ (passAux_inv hInv) ?_
      rcases passAux_changed_growth hw hch with hfalse | hgrow
      · cases hfalse
      · omega
    · rw [loop_succ, if_neg hch]

theorem loop_inv {accepts : Nat → Bool} {code : Code} {fuel : Nat}
    {s : LState} (h : Inv accepts code s) :
    Inv accepts code (loop accepts code fuel s).1 := by
  induction fuel generalizing s with
  | zero => exact h
  | succ fuel ih =>
    rw [loop_succ]
    split
    · exact ih (passAux_inv h)
    · exact passAux_inv h

theorem loop_clean {accepts : Nat → Bool} {code : Code} {fuel : Nat}
    {s : LState} (h2 : (loop accepts code fuel s).2 = true) :
    ∀ i, i < code.length → code.getD i none ≠ none →
      (loop accepts code fuel s).1.dirty i = false := by
  induction fuel generalizing s with
  | zero => cases h2
  | succ fuel ih =>
    rw [loop_succ] at h2 ⊢
    by_cases hch : (passAux accepts code code.length (s, false)).2 = true
    · rw [if_pos hch] at h2 ⊢
      exact ih h2
    · rw [if_neg hch] at h2 ⊢
      intro i hi hnn
      have hfalse : (passAux accepts code code.length (s, false)).2 = false := by
        cases hcase : (passAux accepts code code.length (s, false)).2
        · rfl
        · exact absurd hcase hch
      exact (passAux_clean hfalse).2 i hi hnn

theorem fixed_point_of_clean {accepts : Nat → Bool} {code : Code} {s : LState}
    (hInv : Inv accepts code s)
    (hclean : ∀ i, i < code.length → code.getD i none ≠ none →
      s.dirty i = false) :
    ∀ b block, code.getD b none = some block →
      ∀ x, x ∈ s.liveAtTail b ↔
        (x ∈ lateUsesOfTerminal accepts block ∨
         ∃ si sblock, code.getD si none = some sblock ∧ b ∈ sblock.preds ∧
           x ∈ liveBeforeFirst accepts sblock (s.liveAtTail si)) := by
  intro b block hb x
  constructor
  · intro hx
    rcases hInv.tail_from b x hx with ⟨blockq, hbq, hlate⟩ | ⟨r, rb, hr, hrp, hxr⟩
    · left
      have hqb : blockq = block := Option.some.inj (hbq.symm.trans hb)
      exact hqb ▸ hlate
    · exact Or.inr ⟨r, rb, hr, hrp, hInv.head_sub_scan r rb hr x hxr⟩
  · intro hx
    rcases hx with hlate | ⟨si, sblock, hsi, hbp, hxs⟩
    · exact hInv.late_sub b block hb x hlate
    · have hsl : si < code.length := lt_length_of_getD_eq_some hsi
      have hnn : code.getD si none ≠ none := by
        rw [hsi]
        intro hcon
        cases hcon
      have hhead := hInv.clean_scan_sub_head si sblock hsi
        (hclean si hsl hnn) x hxs
      exact hInv.head_sub_preds_tail si sblock hsi b hbp x hhead

theorem loop_result_flag {accepts : Nat → Bool} {code : Code}
    (hw : WF code = true) :
    (loop accepts code (fuelBound code) (initState accepts code)).2 = true := by
  refine loop_exits hw _ _ (inv_init accepts code) ?_
  unfold fuelBound
  have hgen : ∀ (bound total : Nat), bound < total + (bound + 1) := by
    intro bound total
    omega
  exact hgen _ _

theorem abstractLiveness_fixed_point {accepts : Nat → Bool} {code : Code}
    (hw : WF code = true) :
    ∀ b block, code.getD b none = some block →
      ∀ x, x ∈ abstractLiveness accepts code b ↔
        (x ∈ lateUsesOfTerminal accepts block ∨
         ∃ si sblock, code.getD si none = some sblock ∧ b ∈ sblock.preds ∧
           x ∈ liveBeforeFirst accepts sblock (abstractLiveness accepts code si)) := by
  exact fixed_point_of_clean
    (loop_inv (inv_init accepts code))
    (loop_clean (loop_result_flag hw))

/- Concrete fixtures used by the witnesses below. -/

def roleEarlyUse : Role := ⟨true, false, false⟩

def roleLateUse : Role := ⟨false, true, false⟩

def roleDef : Role := ⟨false, false, true⟩

def roleDefLateUse : Role := ⟨false, true, true⟩

/-- Example block 0: a single instruction defining entity 5; no
predecessors. -/
def exBlock0 : BasicBlock := ⟨[[⟨5, roleDef, 0⟩]], []⟩

/-- Example block 1: terminal instruction late-uses entity 5;
predecessor is block 0. -/
def exBlock1 : BasicBlock := ⟨[[⟨5, roleLateUse, 0⟩]], [0]⟩

/-- Example CFG: block 0 followed by block 1. -/
def exCode : Code := [some exBlock0, some exBlock1]

/-- Example domain: accept every type tag. -/
def exAccepts : Nat → Bool := fun _ => true

/-- Example block with two instructions: the first both defines and
late-uses entity 3, the second early-uses entity 9. -/
def exBlock2 : BasicBlock := ⟨[[⟨3, roleDefLateUse, 0⟩], [⟨9, roleEarlyUse, 0⟩]], []⟩

/-- An example post-construction engine state. -/
def exPState : PState := ⟨fun _ => [5], []⟩

/-- An example loop state whose liveAtHead already equals the scan
result of block 1. -/
def exState : LState := ⟨fun _ => [5], fun _ => [5], fun _ => false⟩

theorem getD_range {n i : Nat} (h : i < n) : (List.range n).getD i 0 = i := by
  rw [List.getD_eq_getElem?_getD, List.getElem?_range h]
  rfl

/-- The liveAtHead part of the loop invariant: each liveAtHead vector is
duplicate-free and a subset of the live-before-first set the scan would
compute from the current liveAtTail. -/
def HeadInv (accepts : Nat → Bool) (code : Code) (s : LState) : Prop :=
  (∀ b, (s.liveAtHead b).Nodup) ∧
  (∀ b block, code.getD b none = some block →
    ∀ x ∈ s.liveAtHead b, x ∈ liveBeforeFirst accepts block (s.liveAtTail b))

theorem headInv_init (accepts : Nat → Bool) (code : Code) :
    HeadInv accepts code (initState accepts code) := by
  constructor
  · intro b
    exact List.nodup_nil
  · intro b block hb x hx
    cases hx

theorem headInv_processBlock {accepts : Nat → Bool} {code : Code}
    {s : LState} {ch : Bool} {b : Nat} (h : HeadInv accepts code s) :
    HeadInv accepts code (processBlock accepts code b (s, ch)).1 := by
  obtain ⟨hnd, hsub⟩ := h
  cases hb : code.getD b none with
  | none => rw [processBlock_none hb]; exact ⟨hnd, hsub⟩
  | some block =>
    cases hd : s.dirty b with
    | false => rw [processBlock_clean hb hd]; exact ⟨hnd, hsub⟩
    | true =>
      rw [processBlock_dirty_eq hb hd]
      by_cases hde : (deltaOf accepts block s b).isEmpty = true
      · rw [if_pos hde]
        exact ⟨hnd, hsub⟩
      · rw [if_neg hde]
        have hde2 : (deltaOf accepts block s b).isEmpty = false := by
          cases hcase : (deltaOf accepts block s b).isEmpty
          · rfl
          · exact absurd hcase hde
        have hΔn : (deltaOf accepts block s b).Nodup := nodup_deltaOf
        have hmid := @midState_tail accepts block s b
        have hheads : (propagate block.preds (deltaOf accepts block s b)
            (midState accepts block s b, ch)).1.liveAtHead =
            upd s.liveAtHead b
              (s.liveAtHead b ++ deltaOf accepts block s b) := by
          rw [propagate_liveAtHead hΔn, midState_head]
        have htmono : ∀ q, ∀ y ∈ s.liveAtTail q,
            y ∈ (propagate block.preds (deltaOf accepts block s b)
              (midState accepts block s b, ch)).1.liveAtTail q := by
          intro q y hy
          refine propagate_tail_mono hΔn _ _ q y ?_
          rw [hmid]
          exact hy
        constructor
        · intro q
          rw [hheads]
          by_cases hq : q = b
          · subst hq
            rw [upd_apply_same]
            refine (hnd q).append hΔn ?_
            intro a ha had
            exact ((deltaOf_mem_iff hde2).mp had).2 ha
          · rw [upd_apply_ne _ _ _ hq]
            exact hnd q
        · intro q qb hq x hx
          rw [hheads] at hx
          by_cases hqb : q = b
          · subst hqb
            have hqb2 : qb = block := Option.some.inj (hq.symm.trans hb)
            subst hqb2
            rw [upd_apply_same] at hx
            rcases List.mem_append.mp hx with hl | hr
            · exact liveBeforeFirst_mono (htmono q) x (hsub q qb hq x hl)
            · exact liveBeforeFirst_mono (htmono q) x (deltaOf_sub x hr)
          · rw [upd_apply_ne _ _ _ hqb] at hx
            exact liveBeforeFirst_mono (htmono q) x (hsub q qb hq x hx)

/-- C1: after the AbstractLiveness constructor completes, for every
(non-null) block b of a well-formed CFG, liveAtTail[b] contains exactly
the union of the accepted late-use operand indices of b's terminal
instruction and the live-before-first-instruction sets of every
successor of b, the latter computed by the Local Backward Scan from the
final liveAtTail sets. -/
theorem c1_fixed_point_postcondition (accepts : Nat → Bool) (code : Code)
    (hw : WF code = true) (b : Nat) (block : BasicBlock)
    (hb : code.getD b none = some block) :
    ∀ x, x ∈ abstractLiveness accepts code b ↔
      (x ∈ lateUsesOfTerminal accepts block ∨
       ∃ si sblock, code.getD si none = some sblock ∧ b ∈ sblock.preds ∧
         x ∈ liveBeforeFirst accepts sblock (abstractLiveness accepts code si)) :=
  abstractLiveness_fixed_point hw b block hb

theorem c1_witness :
    WF exCode = true ∧
    (5 ∈ abstractLiveness exAccepts exCode 0 ↔
      (5 ∈ lateUsesOfTerminal exAccepts exBlock0 ∨
       ∃ si sblock, exCode.getD si none = some sblock ∧ 0 ∈ sblock.preds ∧
         5 ∈ liveBeforeFirst exAccepts sblock (abstractLiveness exAccepts exCode si))) :=
  ⟨by decide,
   c1_fixed_point_postcondition exAccepts exCode (by decide) 0 exBlock0 (by decide) 5⟩

/-- C2: execute(i) first removes the accepted Def operand indices of
instruction i, then adds its accepted EarlyUse indices, and finally -
iff i is nonzero - adds the accepted LateUse indices of instruction
i-1; membership in the result is therefore: an early use of i, or (i
nonzero and) a late use of i-1, or an element of the incoming workset
that is not an accepted Def of i.  Consequently an entity that is both
defined and late-used by instruction j survives into the live set at
the boundary before instruction j+1. -/
theorem c2_execute_step_semantics (accepts : Nat → Bool) (b : BasicBlock)
    (i : Nat) (ws : List Nat) (x : Nat) :
    (x ∈ execute accepts b i ws ↔
      OpIn (isAcceptedEarlyUse accepts) (b.insts.getD i []) x ∨
      (i ≠ 0 ∧ OpIn (isAcceptedLateUse accepts) (b.insts.getD (i - 1) []) x) ∨
      (x ∈ ws ∧ ¬ OpIn (isAcceptedDef accepts) (b.insts.getD i []) x)) ∧
    (∀ j d ws2, j + 1 < b.insts.length →
      OpIn (isAcceptedDef accepts) (b.insts.getD j []) d →
      OpIn (isAcceptedLateUse accepts) (b.insts.getD j []) d →
      d ∈ execute accepts b (j + 1) ws2) := by
  constructor
  · exact mem_execute
  · intro j d ws2 _ _ hlate
    rw [mem_execute]
    exact Or.inr (Or.inl ⟨Nat.succ_ne_zero j, by
      simpa using hlate⟩)

theorem c2_witness :
    0 + 1 < exBlock2.insts.length ∧ 3 ∈ execute exAccepts exBlock2 1 [] :=
  ⟨by decide,
   (c2_execute_step_semantics exAccepts exBlock2 1 [] 3).2 0 3 []
     (by decide) (by decide) (by decide)⟩

/-- C3: on every well-formed finite CFG the do/while loop of the
AbstractLiveness constructor reaches its fixed point within
numBlocks * numEntities + 1 passes: with that fuel the loop's exit flag
records that it stopped because `changed` was false, not because fuel
ran out.  The proof is the classic monotone argument: each pass that
sets `changed` strictly grows the total size of the tail sets, which is
bounded by numBlocks * numEntities. -/
theorem c3_fixed_point_termination (accepts : Nat → Bool) (code : Code)
    (hw : WF code = true) :
    (loop accepts code (fuelBound code) (initState accepts code)).2 = true :=
  loop_result_flag hw

theorem c3_witness :
    WF exCode = true ∧
    (loop exAccepts exCode (fuelBound exCode) (initState exAccepts exCode)).2 = true :=
  ⟨by decide, c3_fixed_point_termination exAccepts exCode (by decide)⟩

/-- C5: before the fixed-point iteration starts, liveAtTail[b] of every
(non-null) block b contains exactly the accepted LateUse operand
indices of b's terminal (last) instruction, and b is marked dirty. -/
theorem c5_initialization (accepts : Nat → Bool) (code : Code) (b : Nat)
    (block : BasicBlock) (hb : code.getD b none = some block) :
    (∀ x, x ∈ (initState accepts code).liveAtTail b ↔
      OpIn (isAcceptedLateUse accepts) (block.insts.getLastD []) x) ∧
    (initState accepts code).dirty b = true := by
  constructor
  · intro x
    rw [initState_tail_some hb]
    unfold lateUsesOfTerminal
    rw [mem_foldAdd]
    constructor
    · rintro (hn | ho)
      · cases hn
      · exact ho
    · exact Or.inr
  · exact decide_eq_true (lt_length_of_getD_eq_some hb)

theorem c5_witness :
    (5 ∈ (initState exAccepts exCode).liveAtTail 1 ↔
      OpIn (isAcceptedLateUse exAccepts) (exBlock1.insts.getLastD []) 5) ∧
    (initState exAccepts exCode).dirty 1 = true :=
  ⟨(c5_initialization exAccepts exCode 1 exBlock1 (by decide)).1 5,
   (c5_initialization exAccepts exCode 1 exBlock1 (by decide)).2⟩

/-- C6: the Local Backward Scan over a block is a pure function of
liveAtTail[b] and the block's instructions - its result does not depend
on any other engine state (in particular not on leftover workset
contents, which the LocalCalc constructor clears) - and running it a
second time with unmodified liveAtTail yields the identical
live-before-first-instruction set. -/
theorem c6_idempotent_rescan (accepts : Nat → Bool) (st st2 : PState)
    (block : BasicBlock) (b : Nat)
    (h : st.liveAtTail b = st2.liveAtTail b) :
    (scanBlock accepts st block b).workset =
      (scanBlock accepts st2 block b).workset ∧
    (scanBlock accepts (scanBlock accepts st block b) block b).workset =
      (scanBlock accepts st block b).workset := by
  constructor
  · show execDown accepts block block.insts.length
      (localCalcInit (st.liveAtTail b)) = execDown accepts block
      block.insts.length (localCalcInit (st2.liveAtTail b))
    rw [h]
  · rfl

theorem c6_witness :
    (scanBlock exAccepts exPState exBlock1 1).workset =
      (scanBlock exAccepts exPState exBlock1 1).workset ∧
    (scanBlock exAccepts (scanBlock exAccepts exPState exBlock1 1)
        exBlock1 1).workset =
      (scanBlock exAccepts exPState exBlock1 1).workset :=
  c6_idempotent_rescan exAccepts exPState exPState exBlock1 1 rfl

/-- C8: after construction the liveAtTail sets are stable - none of the
operations subsequently available to a consumer (constructing a
LocalCalc for a block, execute, live, or a whole re-scan) writes any
liveAtTail set; each writes at most the shared workset. -/
theorem c8_liveAtTail_stability (accepts : Nat → Bool) (st : PState)
    (b i p : Nat) (block : BasicBlock) :
    (lcInit st b).liveAtTail p = st.liveAtTail p ∧
    (lcExecute accepts block i st).liveAtTail p = st.liveAtTail p ∧
    (scanBlock accepts st block b).liveAtTail p = st.liveAtTail p ∧
    lcLive st = st.workset :=
  ⟨rfl, rfl, rfl, rfl⟩

/-- C7: the adapters map valid entities injectively to dense indices
bounded by maxIndex, with indexToValue inverting valueToIndex; for the
stack-slot adapter the domain size bound equals the number of stack
slots (maxIndex + 1 = numSlots) and every type tag is accepted.  The
Tmp mapper is modelled from the spec (AirTmpInlines.h is not among the
analysed sources). -/
theorem c7_adapter_index_bounds :
    (∀ numRegisters numTmps t, TmpValid numRegisters numTmps t →
      tmpValueToIndex numRegisters t ≤ tmpMaxIndex numRegisters numTmps ∧
      tmpFromAbsoluteIndex numRegisters (tmpValueToIndex numRegisters t) = t) ∧
    (∀ numRegisters numTmps t t2, TmpValid numRegisters numTmps t →
      TmpValid numRegisters numTmps t2 →
      tmpValueToIndex numRegisters t = tmpValueToIndex numRegisters t2 →
      t = t2) ∧
    (∀ n slot, 1 ≤ n → n < 2 ^ 32 → slot < n →
      stackValueToIndex slot ≤ stackSlotMaxIndex n ∧
      stackIndexToValue n (stackValueToIndex slot) = slot ∧
      stackSlotMaxIndex n + 1 = n) ∧
    (∀ ty, stackAccepts ty = true) := by
  have hround : ∀ numRegisters numTmps t, TmpValid numRegisters numTmps t →
      tmpValueToIndex numRegisters t ≤ tmpMaxIndex numRegisters numTmps ∧
      tmpFromAbsoluteIndex numRegisters (tmpValueToIndex numRegisters t) = t := by
    intro nR nT t hv
    cases t with
    | reg r =>
      have hr : r < nR := hv
      constructor
      · show r ≤ nR + nT
        omega
      · show tmpFromAbsoluteIndex nR r = Tmp.reg r
        unfold tmpFromAbsoluteIndex
        rw [if_pos hr]
    | tmp i =>
      have hi : i < nT := hv
      constructor
      · show nR + i ≤ nR + nT
        omega
      · show tmpFromAbsoluteIndex nR (nR + i) = Tmp.tmp i
        unfold tmpFromAbsoluteIndex
        rw [if_neg (by omega)]
        congr 1
        omega
  refine ⟨hround, ?_, ?_, fun ty => rfl⟩
  · intro nR nT t t2 hv hv2 heq
    have h1 := (hround nR nT t hv).2
    have h2 := (hround nR nT t2 hv2).2
    rw [← h1, ← h2, heq]
  · intro n slot h1 h2 hslot
    have hmax : stackSlotMaxIndex n = n - 1 := by
      unfold stackSlotMaxIndex
      omega
    refine ⟨?_, ?_, ?_⟩
    · show slot ≤ stackSlotMaxIndex n
      rw [hmax]
      omega
    · show (List.range n).getD slot 0 = slot
      exact getD_range hslot
    · rw [hmax]
      omega

theorem c7_witness :
    (tmpValueToIndex 2 (Tmp.tmp 1) ≤ tmpMaxIndex 2 3 ∧
     tmpFromAbsoluteIndex 2 (tmpValueToIndex 2 (Tmp.tmp 1)) = Tmp.tmp 1) ∧
    (stackValueToIndex 3 ≤ stackSlotMaxIndex 5 ∧
     stackIndexToValue 5 (stackValueToIndex 3) = 3 ∧
     stackSlotMaxIndex 5 + 1 = 5) :=
  ⟨c7_adapter_index_bounds.1 2 3 (Tmp.tmp 1) (by decide),
   c7_adapter_index_bounds.2.2.1 5 3 (by decide) (by decide) (by decide)⟩

/-- C10: StackSlotLivenessAdapter::maxIndex computes
stackSlots().size() - 1 in unsigned arithmetic.  With at least one
stack slot (and a realistic count below 2^32) it is the largest valid
slot index; with zero slots the subtraction wraps modulo the word size
and the wrapped value 2^32 - 1 is what the engine passes as the
workset capacity at construction. -/
theorem c10_stack_maxindex_wraparound :
    (∀ n, 1 ≤ n → n < 2 ^ 32 → stackSlotMaxIndex n = n - 1) ∧
    stackSlotMaxIndex 0 = 2 ^ 32 - 1 ∧
    stackWorksetCapacity 0 = 2 ^ 32 - 1 := by
  refine ⟨?_, ?_, ?_⟩
  · intro n h1 h2
    unfold stackSlotMaxIndex
    omega
  · unfold stackSlotMaxIndex
    omega
  · unfold stackWorksetCapacity stackSlotMaxIndex
    omega

theorem c10_witness :
    1 ≤ 5 ∧ stackSlotMaxIndex 5 = 4 :=
  ⟨by decide, c10_stack_maxindex_wraparound.1 5 (by decide) (by decide)⟩

theorem any_congr_mem {l l2 : List Nat} (r : Nat → Bool)
    (h : ∀ x, x ∈ l ↔ x ∈ l2) : l.any r = l2.any r := by
  cases hcase : l2.any r with
  | false =>
    rw [List.any_eq_false] at hcase ⊢
    intro x hx
    exact hcase x ((h x).mp hx)
  | true =>
    rw [List.any_eq_true] at hcase ⊢
    obtain ⟨x, hx, hr⟩ := hcase
    exact ⟨x, (h x).mpr hx, hr⟩

/-- C4: when a dirty block b is scanned (given the liveAtHead invariant
that makes the size shortcut sound), every predecessor p of b receives
exactly the delta - the live-before-first entities of b not already in
liveAtHead[b] - into liveAtTail[p], and p's dirty bit after the step is
set exactly when it was already set (b's own bit having just been
cleared) or the insertion actually added a new element to
liveAtTail[p]. -/
theorem c4_predecessor_propagation (accepts : Nat → Bool) (code : Code)
    (b : Nat) (block : BasicBlock) (s : LState) (ch : Bool)
    (hb : code.getD b none = some block) (hd : s.dirty b = true)
    (hnd : (s.liveAtHead b).Nodup)
    (hsub : ∀ x ∈ s.liveAtHead b,
      x ∈ liveBeforeFirst accepts block (s.liveAtTail b)) :
    ∀ p ∈ block.preds,
      (∀ x, x ∈ (processBlock accepts code b (s, ch)).1.liveAtTail p ↔
        (x ∈ s.liveAtTail p ∨
         (x ∈ liveBeforeFirst accepts block (s.liveAtTail b) ∧
          x ∉ s.liveAtHead b))) ∧
      (processBlock accepts code b (s, ch)).1.dirty p =
        ((upd s.dirty b false) p ||
         ((liveBeforeFirst accepts block (s.liveAtTail b)).filter
           (fun v => decide (v ∉ s.liveAtHead b))).any
           (fun v => decide (v ∉ s.liveAtTail p))) := by
  intro p hp
  rw [processBlock_dirty_eq hb hd]
  by_cases hde : (deltaOf accepts block s b).isEmpty = true
  · rw [if_pos hde]
    have hscan := deltaOf_empty_imp hnd hsub hde
    have hfe : (liveBeforeFirst accepts block (s.liveAtTail b)).filter
        (fun v => decide (v ∉ s.liveAtHead b)) = [] := by
      rw [List.filter_eq_nil_iff]
      intro v hv
      simpa using hscan v hv
    constructor
    · intro x
      show x ∈ s.liveAtTail p ↔ _
      constructor
      · exact Or.inl
      · rintro (hx | ⟨hx1, hx2⟩)
        · exact hx
        · exact absurd (hscan x hx1) hx2
    · rw [hfe]
      show (upd s.dirty b false) p = _
      simp
  · rw [if_neg hde]
    have hde2 : (deltaOf accepts block s b).isEmpty = false := by
      cases hcase : (deltaOf accepts block s b).isEmpty
      · rfl
      · exact absurd hcase hde
    have hΔn : (deltaOf accepts block s b).Nodup := nodup_deltaOf
    constructor
    · intro x
      constructor
      · intro hx
        obtain ⟨t, ht, hts⟩ := propagate_tail_extend hΔn
          (midState accepts block s b) ch p
        rw [ht] at hx
        rcases List.mem_append.mp hx with hl | hr
        · exact Or.inl hl
        · exact Or.inr ((deltaOf_mem_iff hde2).mp (hts x hr))
      · rintro (hx | ⟨h1, h2⟩)
        · exact propagate_tail_mono hΔn _ _ p x hx
        · exact propagate_tail_all hΔn _ _ p hp x
            ((deltaOf_mem_iff hde2).mpr ⟨h1, h2⟩)
    · rw [propagate_dirty hΔn, midState_dirty, decide_eq_true hp,
        Bool.true_and]
      congr 1
      have hmid : (fun v => (decide
            (v ∉ (midState accepts block s b).liveAtTail p) : Bool)) =
          (fun v => (decide (v ∉ s.liveAtTail p) : Bool)) := by
        funext v
        rw [midState_tail]
      rw [hmid]
      refine any_congr_mem _ ?_
      intro v
      rw [deltaOf_mem_iff hde2, List.mem_filter]
      simp

theorem c4_witness :
    (5 ∈ (processBlock exAccepts exCode 1
        (initState exAccepts exCode, false)).1.liveAtTail 0 ↔
      (5 ∈ (initState exAccepts exCode).liveAtTail 0 ∨
       (5 ∈ liveBeforeFirst exAccepts exBlock1
          ((initState exAccepts exCode).liveAtTail 1) ∧
        5 ∉ (initState exAccepts exCode).liveAtHead 1))) ∧
    (processBlock exAccepts exCode 1
        (initState exAccepts exCode, false)).1.dirty 0 =
      ((upd (initState exAccepts exCode).dirty 1 false) 0 ||
       ((liveBeforeFirst exAccepts exBlock1
          ((initState exAccepts exCode).liveAtTail 1)).filter
         (fun v => decide (v ∉ (initState exAccepts exCode).liveAtHead 1))).any
         (fun v => decide (v ∉ (initState exAccepts exCode).liveAtTail 0))) := by
  have hm := c4_predecessor_propagation exAccepts exCode 1 exBlock1
    (initState exAccepts exCode) false (by decide) (by decide) (by decide)
    (by decide) 0 (by decide)
  exact ⟨hm.1 5, hm.2⟩

/-- C9: the implicit invariant justifying the size-equality shortcut:
liveAtHead[b] is duplicate-free and a subset of the scan's
live-before-first set; the invariant holds at initialization, is
preserved by every block-processing step, and under it equal sizes of
workset and liveAtHead[b] force the two to have the same members, so
the delta is empty. -/
theorem c9_shortcut_invariant (accepts : Nat → Bool) (code : Code) :
    HeadInv accepts code (initState accepts code) ∧
    (∀ (s : LState) (ch : Bool) (b : Nat), HeadInv accepts code s →
      HeadInv accepts code (processBlock accepts code b (s, ch)).1) ∧
    (∀ (s : LState) (b : Nat) (block : BasicBlock),
      code.getD b none = some block →
      (s.liveAtHead b).Nodup →
      (∀ x ∈ s.liveAtHead b,
        x ∈ liveBeforeFirst accepts block (s.liveAtTail b)) →
      (liveBeforeFirst accepts block (s.liveAtTail b)).length =
        (s.liveAtHead b).length →
      ∀ x, x ∈ liveBeforeFirst accepts block (s.liveAtTail b) ↔
        x ∈ s.liveAtHead b) := by
  refine ⟨headInv_init accepts code,
    fun s ch b h => headInv_processBlock h, ?_⟩
  intro s b block _ hnd hsub hlen x
  constructor
  · exact nodup_sub_length_imp nodup_liveBeforeFirst hnd hsub hlen x
  · intro hx
    exact hsub x hx

theorem c9_witness :
    5 ∈ liveBeforeFirst exAccepts exBlock1 (exState.liveAtTail 1) ↔
      5 ∈ exState.liveAtHead 1 :=
  (c9_shortcut_invariant exAccepts exCode).2.2 exState 1 exBlock1
    (by decide) (by decide) (by decide) (by decide) 5

end AirLiveness
